import Mathlib

/-!
# Verification of the RsaCtfTool cryptanalytic core

Shallow embedding of the Python sources

* `src/attacks/multi_keys/hastads.py`   (`chinese_remainder`, `mul_inv`,
  `find_invpow`, `attack`)
* `src/attacks/single_key/boneh_durfee.py` (`remove_unhelpful`, the
  determinant/strict check of `boneh_durfee`, the bound arithmetic of
  `factor`, the `attack` wrapper)
* `src/attacks/single_key/smallfraction.py` (`attack`)
* `src/attacks/single_key/factordb.py` (`solveforp`, `attack`)

Python big integers are modelled as `Int`/`Nat`; Python exceptions are
modelled by `Except PyErr` (or `Option` where a single exception can occur).
Python `//` and `%` on integers are floor division and floor modulus, i.e.
`Int.fdiv` / `Int.fmod`.
-/

/-- Python exceptions that the modelled code can raise or catch. -/
inductive PyErr where
  | zeroDivision
  | valueError
  | typeError
  | overflowError
  | calledProcessError
  | timeoutExpired
  | factorizationError
  deriving DecidableEq, Repr

/-! ## hastads.py -/

namespace Hastads

/-- The extended-Euclid loop of `mul_inv` (`hastads.py` lines 26-29):
`while a > 1: q = a // b; a, b = b, a % b; x0, x1 = x1 - q * x0, x0`.
`none` models the `ZeroDivisionError` raised by `a // b` when `b == 0`.
Terminating because the floor remainder is smaller in absolute value
than the (nonzero) divisor. -/
def mulInvLoop (a b x0 x1 : Int) : Option Int :=
  if 1 < a then
    if hb : b = 0 then none
    else mulInvLoop b (a.fmod b) (x1 - a.fdiv b * x0) x0
  else some x1
termination_by b.natAbs
decreasing_by
  show (a.fmod b).natAbs < b.natAbs
  rcases hb' : b with (_ | n) | n
  · exact absurd hb' hb
  · have hpos : (0 : Int) < Int.ofNat (n + 1) := Int.ofNat_pos.mpr (Nat.succ_pos n)
    have h1 := Int.fmod_nonneg' a hpos
    have h2 := Int.fmod_lt_of_pos a hpos
    omega
  · rcases a with (_ | m) | m
    · simp
    · have he : Int.fmod (Int.ofNat (m + 1)) (Int.negSucc n) =
          Int.subNatNat (m % (n + 1)) n := rfl
      have hm : m % (n + 1) < n + 1 := Nat.mod_lt _ (Nat.succ_pos n)
      rw [he, Int.subNatNat_eq_coe]
      simp only [Int.natAbs_negSucc]
      omega
    · have he : Int.fmod (Int.negSucc m) (Int.negSucc n) =
          -Int.ofNat ((m + 1) % (n + 1)) := rfl
      have hm : (m + 1) % (n + 1) < n + 1 := Nat.mod_lt _ (Nat.succ_pos n)
      rw [he, Int.natAbs_neg]
      rw [show (Int.ofNat ((m + 1) % (n + 1))).natAbs = (m + 1) % (n + 1) from rfl]
      rw [show (Int.negSucc n).natAbs = n + 1 from rfl]
      omega

/-- `mul_inv(a, b)` from `hastads.py` lines 21-32.  Returns `none` when the
Python code would raise `ZeroDivisionError` inside the Euclid loop. -/
def mul_inv (a b : Int) : Option Int :=
  if b = 1 then some 1
  else (mulInvLoop a b 0 1).map (fun x1 => if x1 < 0 then x1 + b else x1)

/-- The summation loop of `chinese_remainder` (`hastads.py` lines 15-17):
`for n_i, a_i in zip(n, a): p = prod // n_i; sum += a_i * mul_inv(p, n_i) * p`. -/
def crtLoop (prod : Int) : List (Int × Int) → Int → Except PyErr Int
  | [], sum => .ok sum
  | (n_i, a_i) :: rest, sum =>
    match mul_inv (prod.fdiv n_i) n_i with
    | none => .error .zeroDivision
    | some inv => crtLoop prod rest (sum + a_i * inv * (prod.fdiv n_i))

/-- `chinese_remainder(n, a)` from `hastads.py` lines 11-18.
`reduce(lambda a, b: a * b, n)` raises `TypeError` on an empty list;
on `n = n₀ :: rest` it left-folds multiplication starting from `n₀`. -/
def chinese_remainder (n a : List Int) : Except PyErr Int :=
  match n with
  | [] => .error .typeError
  | n0 :: nrest =>
    let prod := nrest.foldl (· * ·) n0
    (crtLoop prod (n.zip a) 0).map (fun sum => sum.fmod prod)

/-- The doubling loop of `find_invpow` (`hastads.py` lines 36-38):
`high = 1; while high ** n < x: high *= 2`.  The guards `1 ≤ n` and
`1 ≤ high` only rule out the states on which the Python loop never
terminates (`n = 0, x > 1`); `high` is always `≥ 1` when reached from
`find_invpow`, which starts it at 1. -/
def hiLoop (x n : Nat) (high : Nat) : Nat :=
  if high ^ n < x ∧ 1 ≤ n ∧ 1 ≤ high then hiLoop x n (high * 2) else high
termination_by x - high
decreasing_by
  rename_i h
  obtain ⟨hlt, hn, hhigh⟩ := h
  have : high ≤ high ^ n := Nat.le_self_pow (by omega) high
  omega

/-- The bisection loop of `find_invpow` (`hastads.py` lines 40-48).
The Python loop exits through `return mid` inside the loop, or falls out of
`while low < high` after an update `high = mid` with `mid == low`; in that
case it executes `return mid + 1` where `mid` equals the current `low`,
which the recursion renders as the `low + 1` in the outer `else`. -/
def bisect (x n low high : Nat) : Nat :=
  if low < high then
    let mid := (low + high) / 2
    if low < mid ∧ mid ^ n < x then bisect x n mid high
    else if mid < high ∧ x < mid ^ n then bisect x n low mid
    else mid
  else low + 1
termination_by high - low
decreasing_by
  · rename_i hlh h
    obtain ⟨h1, _⟩ := h
    omega
  · rename_i hlh _ h
    obtain ⟨h1, _⟩ := h
    omega

/-- `find_invpow(x, n)` from `hastads.py` lines 35-48. -/
def find_invpow (x n : Nat) : Nat :=
  let high := hiLoop x n 1
  bisect x n (high / 2) high

/-- `int.from_bytes(b, byteorder="big")`. -/
def fromBytesBE (bs : List Nat) : Nat :=
  bs.foldl (fun acc b => acc * 256 + b) 0

/-- The hexadecimal digit string `hex(v)[2:]` of Python, as the list of
big-endian base-16 digit values (`hex(0)[2:] = "0"`, one zero digit). -/
def pyHexDigits (v : Nat) : List Nat :=
  if v = 0 then [0] else (Nat.digits 16 v).reverse

/-- `bytes.fromhex` on a digit string: consumes the digits two at a time;
an odd-length string raises `ValueError`, modelled as `none`. -/
def fromhexPairs : List Nat → Option (List Nat)
  | [] => some []
  | [_] => none
  | d0 :: d1 :: rest => (fromhexPairs rest).map (fun bs => (d0 * 16 + d1) :: bs)

/-- The minimal big-endian byte representation of a natural number
(leading zero bytes dropped; `0` becomes the empty byte string). -/
def bytesBE (v : Nat) : List Nat :=
  (Nat.digits 256 v).reverse

/-- A public key as the Håstad attack sees it: the two integers `n`, `e`. -/
structure PubKey where
  n : Int
  e : Int
  deriving DecidableEq, Repr

/-- `attack(attack_rsa_obj, publickeys, cipher)` from `hastads.py` lines
51-77.  `publickeys` is always a list here, so the `isinstance` guard is
omitted.  The private-key slot of the result is always `None` in the
source and is typed `Option Int` as a placeholder.  The `set(e)` of the
source has exactly the elements of `es.dedup`, and `set.pop()` on a
singleton set yields its unique element.  `result.toNat`/`e.toNat` model
the Python values, which are non-negative on every input reaching them
with a non-negative exponent. -/
def attack (publickeys : List PubKey) (cipher : List (List Nat)) :
    Except PyErr (Option Int × Option (List Nat)) :=
  let c : List Int := cipher.map (fun bs => (fromBytesBE bs : Int))
  let usable := publickeys.filter (fun pk => pk.e < 11)
  let n := usable.map (fun pk => pk.n)
  let es := usable.map (fun pk => pk.e)
  match es.dedup with
  | [e] =>
    match chinese_remainder n c with
    | .error err => .error err
    | .ok result =>
      match fromhexPairs (pyHexDigits (find_invpow result.toNat e.toNat)) with
      | none => .error .valueError
      | some unciphered => .ok (none, some unciphered)
  | _ => .ok (none, none)

end Hastads

/-! ## Shared key / result data -/

/-- The mutable state of a caller-supplied `PublicKey` object: the integers
`n`, `e`, and the factor slots `p`, `q` that attacks may attach. -/
structure PubKeyState where
  n : Int
  e : Int
  p : Option Int := none
  q : Option Int := none
  deriving DecidableEq, Repr

/-- A constructed `PrivateKey` value: either from factors
`PrivateKey(p, q, e, n)` or from an exponent `PrivateKey(e=e, n=n, d=d)`. -/
inductive PrivKeyVal where
  | fromFactors (p q e n : Int)
  | fromD (e n d : Int)
  deriving DecidableEq, Repr

/-- The result type of a single-key attack entry point: final state of the
caller's `PublicKey` object, and the returned pair (or a propagated
exception). -/
abbrev AttackOut := PubKeyState × Except PyErr (Option PrivKeyVal × Option (List Nat))

/-! ## boneh_durfee.py -/

namespace BonehDurfee

/-- Module constant `dimension_min = 7` (`boneh_durfee.py` line 42):
stop removing if the lattice reaches that dimension. -/
def dimension_min : Nat := 7

/-- `BB[i, j]` on a list-of-rows integer matrix (0 outside the bounds;
never accessed outside the bounds on the inputs the source reaches). -/
def mget (BB : List (List Int)) (i j : Nat) : Int :=
  (BB.getD i []).getD j 0

/-- `BB.delete_columns([i]); BB.delete_rows([i])`: remove row `i` and
column `i`. -/
def eraseRowCol (i : Nat) (BB : List (List Int)) : List (List Int) :=
  (BB.eraseIdx i).map (fun row => row.eraseIdx i)

mutual

/-- `remove_unhelpful(BB, monomials, bound, current)` from
`boneh_durfee.py` lines 73-129.  The matrix is a list of rows, the
in-place `monomials.pop` mutations are returned in the second component,
and `curN = current + 1` (so `curN = 0` encodes `current == -1`). -/
def remove_unhelpful (BB : List (List Int)) (monomials : List Nat)
    (bound : Int) (curN : Nat) : List (List Int) × List Nat :=
  if curN = 0 ∨ BB.length ≤ dimension_min then (BB, monomials)
  else unhelpfulScan BB monomials bound curN
termination_by (curN, 1)

/-- The `for ii in range(current, -1, -1)` scan inside `remove_unhelpful`
(lines 82-127); `iiN = ii + 1`.  `affected` collects the `jj > ii` with
`BB[jj, ii] != 0`; Python's `affected_vector_index` is the last such `jj`,
which for a single affected vector is the unique element. -/
def unhelpfulScan (BB : List (List Int)) (monomials : List Nat)
    (bound : Int) (iiN : Nat) : List (List Int) × List Nat :=
  match iiN with
  | 0 => (BB, monomials)
  | ii + 1 =>
    if bound ≤ mget BB ii ii then
      match (List.range BB.length).filter
          (fun jj => decide (ii < jj ∧ mget BB jj ii ≠ 0)) with
      | [] =>
        remove_unhelpful (eraseRowCol ii BB) (monomials.eraseIdx ii) bound ii
      | [jj] =>
        if (List.range BB.length).all
              (fun kk => decide (kk ≤ jj ∨ mget BB kk jj = 0)) ∧
            |bound - mget BB jj jj| < |bound - mget BB ii ii| then
          remove_unhelpful (eraseRowCol ii (eraseRowCol jj BB))
            ((monomials.eraseIdx jj).eraseIdx ii) bound ii
        else unhelpfulScan BB monomials bound ii
      | _ :: _ :: _ => unhelpfulScan BB monomials bound ii
    else unhelpfulScan BB monomials bound ii
termination_by (iiN, 0)

end

/-- Laplace expansion along the first row, with `fuel` bounding the
recursion depth (any `fuel ≥ #rows` computes the determinant).  Models
Sage's exact integer `BB.det()` on square matrices. -/
def detListAux : Nat → List (List Int) → Int
  | 0, _ => 1
  | _, [] => 1
  | fuel + 1, r :: rest =>
    (List.range r.length).foldl
      (fun acc j =>
        acc + (-1) ^ j * r.getD j 0 *
          detListAux fuel (rest.map (fun row => row.eraseIdx j)))
      0

/-- `BB.det()` on a list-of-rows integer matrix. -/
def detList (BB : List (List Int)) : Int :=
  detListAux BB.length BB

/-- The pruning / determinant-bound / strict-mode section of
`boneh_durfee` (`boneh_durfee.py` lines 194-227), parameterized by
`rest`, the continuation performing the LLL reduction and root
extraction of lines 227-257 on the (pruned) lattice and monomial list.
In the source `strict = False` and `helpful_only = True` are module
constants (lines 32, 41); they are taken as parameters here so that both
configurations can be stated.  `remove_unhelpful` is called with
`current = nn - 1`, i.e. `curN = nn = BB.length`. -/
def boneh_durfee_check (strict helpful_only : Bool) (BB : List (List Int))
    (monomials : List Nat) (modulus : Int) (mm : Nat)
    (rest : List (List Int) → List Nat → Int × Int) : Int × Int :=
  let pruned :=
    if helpful_only then remove_unhelpful BB monomials (modulus ^ mm) BB.length
    else (BB, monomials)
  let nn := pruned.1.length
  if helpful_only ∧ nn = 0 then (0, 0)
  else
    let det := detList pruned.1
    let bound := modulus ^ (mm * nn)
    if bound ≤ det then
      if strict then (-1, -1) else rest pruned.1 pruned.2
    else rest pruned.1 pruned.2

/-- The restriction of a matrix to the rows *and columns* whose indices
are in `ks` (used to state that `remove_unhelpful` only ever deletes a
row together with its same-indexed column). -/
def subMat (ks : List Nat) (BB : List (List Int)) : List (List Int) :=
  ks.map (fun i => ks.map (fun j => mget BB i j))

/-- The restriction of the monomial label list to the indices in `ks`. -/
def subIdx (ks : List Nat) (monomials : List Nat) : List Nat :=
  ks.map (fun i => monomials.getD i 0)

/-- Round-half-to-even of the rational `p / q` (`q ≠ 0`). -/
def rhe (p q : Nat) : Nat :=
  let q0 := p / q
  let r := p % q
  if 2 * r < q then q0
  else if q < 2 * r then q0 + 1
  else if q0 % 2 = 0 then q0 else q0 + 1

/-- CPython's true division `a / b` of two Python ints followed by
`int(...)` truncation, for `1 ≤ b ≤ a`: the exact rational `a / b` is
correctly rounded to the nearest IEEE-754 binary64 value (ties to even)
with `OverflowError` (`none`) when the quotient reaches `2^1024`; the
resulting double `m · 2^(e-52)` (with `2^52 ≤ m ≤ 2^53` and
`e = ⌊log₂ (a/b)⌋`) is then truncated to an integer. -/
def pyIntTrueDiv (a b : Nat) : Option Nat :=
  if a = 0 then some 0
  else
    let e := Nat.log 2 (a / b)
    let m := rhe (a * 2 ^ 52) (b * 2 ^ e)
    if 1023 < e then none else some (m * 2 ^ e / 2 ^ 52)

/-- `A = int((N + 1) / 2)` from `factor` (`boneh_durfee.py` line 288):
CPython evaluates `(N + 1) / 2` in binary64 floating point. -/
def factor_A (N : Nat) : Option Nat :=
  pyIntTrueDiv (N + 1) 2

/-- `attack(attack_rsa_obj, publickey, cipher)` from `boneh_durfee.py`
lines 325-342, parameterized by `factorResult`, the outcome of
`factor(publickey.n, publickey.e)` (`.error .overflowError` is the
caught `OverflowError`, `.ok none` is `sageresult is None`), and by
`construct`, the factor recovery `RSA.construct((n, e, d))` of the
external PyCryptodome library, returning `(p, q)`. -/
def attack (publickey : PubKeyState) (factorResult : Except PyErr (Option Int))
    (construct : Int → Int → Int → Int × Int) : AttackOut :=
  match factorResult with
  | .error .overflowError => (publickey, .ok (none, none))
  | .error err => (publickey, .error err)
  | .ok none => (publickey, .ok (none, none))
  | .ok (some d) =>
    let pq := construct publickey.n publickey.e d
    let pk := { publickey with p := some pq.1, q := some pq.2 }
    (pk, .ok (some (.fromFactors pq.1 pq.2 pk.e pk.n), none))

end BonehDurfee

/-! ## smallfraction.py -/

namespace Smallfraction

/-- `attack(attack_rsa_obj, publickey, cipher)` from `smallfraction.py`
lines 11-31, parameterized by `sageresult`, the outcome of
`int(subprocess.check_output(["sage", "./sage/smallfraction.sage", n]))`:
`.error .calledProcessError` and `.error .timeoutExpired` are the two
caught subprocess failures, `.error .valueError` models `int()` failing
to parse the tool's output (not caught by the source), `.ok v` the
parsed integer. -/
def attack (publickey : PubKeyState) (sageresult : Except PyErr Int) :
    AttackOut :=
  match sageresult with
  | .error .calledProcessError => (publickey, .ok (none, none))
  | .error .timeoutExpired => (publickey, .ok (none, none))
  | .error err => (publickey, .error err)
  | .ok v =>
    if 0 < v then
      let pk := { publickey with p := some v, q := some (publickey.n.fdiv v) }
      (pk, .ok (some (.fromFactors v (publickey.n.fdiv v) pk.e pk.n), none))
    else (publickey, .ok (none, none))

end Smallfraction

/-! ## factordb.py -/

namespace Factordb

/-- The first `value="..."` regex match on a factordb id page, after the
`key.isdigit()` test of line 60/65: a pure decimal string (`digits`), a
string of the shape `"k^j-sub"` (`powExpr`), or anything else
(`malformed`). -/
inductive FDBVal where
  | digits (v : Nat)
  | powExpr (k j sub : Nat)
  | malformed
  deriving DecidableEq, Repr

/-- `solveforp(equation)` from `factordb.py` lines 15-30: `"k^j-sub"`
evaluates to `k^j - sub`; on any other shape the `NameError`/`ValueError`
inside the `try` is caught and re-raised as `FactorizationError`.
(The source only calls it on non-digit matches; a digit-only string has
no `"^"`, leaving `k`, `j` unbound, hence `FactorizationError` too.) -/
def solveforp : FDBVal → Except PyErr Int
  | .powExpr k j sub => .ok ((k : Int) ^ j - sub)
  | .digits _ => .error .factorizationError
  | .malformed => .error .factorizationError

/-- `int(key) if key.isdigit() else solveforp(key)` (lines 60 and 65). -/
def parseVal : FDBVal → Except PyErr Int
  | .digits v => .ok (v : Int)
  | v => solveforp v

/-- `attack(attack_rsa_obj, publickey, cipher)` from `factordb.py` lines
33-80, parameterized by the parsed network responses: `ids` (the
`index.php?id=` matches on the query page), `prime` (whether the
`<td>P</td>` regex matched exactly once), `pageVal` (the first
`value="..."` match on the page of a given id, `none` when the regex
finds nothing, in which case `[0]` raises `IndexError`), and `invmod`
(`lib.rsalibnum.invmod`, a collaborator outside `src/`).  The outer bare
`except:` converts every uncaught exception into `(None, None)`; the
inner `except IndexError:` does the same for the two subscripts — in
both cases the `publickey.p`/`publickey.q` assignments already executed
are kept. -/
def attack (publickey : PubKeyState) (ids : List Int) (prime : Bool)
    (pageVal : Int → Option FDBVal) (invmod : Int → Int → Int) : AttackOut :=
  if ids.length = 2 ∧ prime then
    (publickey,
      .ok (some (.fromD publickey.e publickey.n
        (invmod publickey.e (publickey.n - 1))), none))
  else
    match ids.get? 1 with
    | none => (publickey, .ok (none, none))
    | some p_id =>
      match pageVal p_id with
      | none => (publickey, .ok (none, none))
      | some key_p =>
        match parseVal key_p with
        | .error _ => (publickey, .ok (none, none))
        | .ok pval =>
          let pk1 := { publickey with p := some pval }
          match ids.get? 2 with
          | none => (pk1, .ok (none, none))
          | some q_id =>
            match pageVal q_id with
            | none => (pk1, .ok (none, none))
            | some key_q =>
              match parseVal key_q with
              | .error _ => (pk1, .ok (none, none))
              | .ok qval =>
                let pk2 := { pk1 with q := some qval }
                if pval = qval ∧ qval = pk2.n then (pk2, .ok (none, none))
                else
                  (pk2, .ok (some (.fromFactors pval qval pk2.e pk2.n), none))

end Factordb

/-- An 8×8 lattice whose pruning pass deletes the companion row 7 even
though its diagonal entry 5 is below the bound 10: row 6 has diagonal
100 ≥ 10 and is affected only by row 7 (`BB[7, 6] = 1`), row 7 affects
nobody else, and `|10 - 5| < |10 - 100|`, so the level-1 branch removes
rows 6 and 7 together. -/
def BBbelow : List (List Int) :=
  [[0, 0, 0, 0, 0, 0, 0, 0], [0, 0, 0, 0, 0, 0, 0, 0],
   [0, 0, 0, 0, 0, 0, 0, 0], [0, 0, 0, 0, 0, 0, 0, 0],
   [0, 0, 0, 0, 0, 0, 0, 0], [0, 0, 0, 0, 0, 0, 0, 0],
   [0, 0, 0, 0, 0, 0, 100, 0], [0, 0, 0, 0, 0, 0, 1, 5]]

/-!
# Proofs

## Correctness of `mul_inv` (extended Euclid)
-/

namespace Hastads

/-- The floor remainder is smaller in absolute value than a nonzero
divisor (the termination argument of the Euclid loop, restated for use
in the correctness proofs). -/
theorem natAbs_fmod_lt (a b : Int) (hb : b ≠ 0) :
    (a.fmod b).natAbs < b.natAbs := by
  rcases b with (_ | n) | n
  · exact absurd rfl hb
  · have hpos : (0 : Int) < Int.ofNat (n + 1) := Int.ofNat_pos.mpr (Nat.succ_pos n)
    have h1 := Int.fmod_nonneg' a hpos
    have h2 := Int.fmod_lt_of_pos a hpos
    omega
  · rcases a with (_ | m) | m
    · simp
    · have he : Int.fmod (Int.ofNat (m + 1)) (Int.negSucc n) =
          Int.subNatNat (m % (n + 1)) n := rfl
      have hm : m % (n + 1) < n + 1 := Nat.mod_lt _ (Nat.succ_pos n)
      rw [he, Int.subNatNat_eq_coe]
      simp only [Int.natAbs_negSucc]
      omega
    · have he : Int.fmod (Int.negSucc m) (Int.negSucc n) =
          -Int.ofNat ((m + 1) % (n + 1)) := rfl
      have hm : (m + 1) % (n + 1) < n + 1 := Nat.mod_lt _ (Nat.succ_pos n)
      rw [he, Int.natAbs_neg]
      rw [show (Int.ofNat ((m + 1) % (n + 1))).natAbs = (m + 1) % (n + 1) from rfl]
      rw [show (Int.negSucc n).natAbs = n + 1 from rfl]
      omega

/-- If `u` and `v` have opposite signs, `|u - v| = |u| + |v|`. -/
theorem natAbs_sub_of_mul_nonpos {u v : Int} (h : u * v ≤ 0) :
    ((u - v).natAbs : Int) = u.natAbs + v.natAbs := by
  rcases le_or_lt u 0 with hu | hu <;> rcases le_or_lt v 0 with hv | hv
  · have h2 : 0 ≤ u * v := by nlinarith
    rcases mul_eq_zero.mp (le_antisymm h h2) with h3 | h3 <;> omega
  · omega
  · omega
  · exact absurd h (not_le.mpr (mul_pos hu hv))

/-- One Euclid step preserves the gcd: `gcd(b, a mod b) = gcd(a, b)`. -/
theorem gcd_fmod_step (a b : Int) : Int.gcd b (a.fmod b) = Int.gcd a b := by
  have hab : a.fmod b + b * a.fdiv b = a := Int.fmod_add_fdiv a b
  apply Nat.dvd_antisymm
  · rw [← Int.natCast_dvd_natCast]
    apply Int.dvd_gcd
    · calc (Int.gcd b (a.fmod b) : Int)
          ∣ a.fmod b + b * a.fdiv b :=
            dvd_add Int.gcd_dvd_right (Dvd.dvd.mul_right Int.gcd_dvd_left _)
        _ = a := hab
    · exact Int.gcd_dvd_left
  · rw [← Int.natCast_dvd_natCast]
    apply Int.dvd_gcd
    · exact Int.gcd_dvd_right
    · have : a.fmod b = a - b * a.fdiv b := by linarith
      rw [this]
      exact dvd_sub Int.gcd_dvd_left (Dvd.dvd.mul_right Int.gcd_dvd_right _)

/-- Invariant of `mulInvLoop` started from `mul_inv a0 b0` (with `b0 ≥ 2`):
if `gcd(a0, b0) = 1` the loop returns some `r` with `|r| ≤ b0` and
`r·a0 ≡ 1 (mod b0)`; otherwise the remainder sequence reaches `b = 0`
with `a > 1` and the loop raises `ZeroDivisionError` (`none`). -/
theorem mulInvLoop_spec (a0 b0 : Int) (hb0 : 2 ≤ b0) (k : Nat) :
    ∀ (a b x0 x1 : Int), b.natAbs ≤ k → 1 ≤ a → 0 ≤ b →
      x0 * x1 ≤ 0 →
      (x0.natAbs : Int) * a + (x1.natAbs : Int) * b = b0 →
      (x1.natAbs : Int) ≤ b0 →
      x1 * a0 ≡ a [ZMOD b0] →
      x0 * a0 ≡ b [ZMOD b0] →
      Int.gcd a b = Int.gcd a0 b0 →
      (Int.gcd a0 b0 = 1 →
        ∃ r, mulInvLoop a b x0 x1 = some r ∧ (r.natAbs : Int) ≤ b0 ∧
          r * a0 ≡ 1 [ZMOD b0]) ∧
      (Int.gcd a0 b0 ≠ 1 → mulInvLoop a b x0 x1 = none) := by
  induction k using Nat.strong_induction_on with
  | _ k ih =>
    intro a b x0 x1 hbk h1 hb hsign hcons hx1 hc1 hc0 hgcd
    rw [mulInvLoop]
    by_cases ha : 1 < a
    · rw [if_pos ha]
      by_cases hbz : b = 0
      · rw [dif_pos hbz]
        subst hbz
        rw [Int.gcd_zero_right] at hgcd
        constructor
        · intro hg1
          exfalso
          have hA : a.natAbs = 1 := by rw [hgcd, hg1]
          omega
        · intro _
          rfl
      · rw [dif_neg hbz]
        have hbpos : 0 < b := lt_of_le_of_ne hb (Ne.symm hbz)
        set q := a.fdiv b with hqdef
        have hq : 0 ≤ q := Int.fdiv_nonneg (by omega) hb
        have hfd : a.fmod b = a - b * q := by
          have := Int.fmod_add_fdiv a b
          linarith
        have hfnn : 0 ≤ a.fmod b := Int.fmod_nonneg' a hbpos
        have habs : ((x1 - q * x0).natAbs : Int) = x1.natAbs + q * x0.natAbs := by
          have hop : x1 * (q * x0) ≤ 0 := by nlinarith
          have h5 := natAbs_sub_of_mul_nonpos hop
          rw [h5, Int.natAbs_mul]
          push_cast
          rw [abs_of_nonneg hq]
        refine ih (a.fmod b).natAbs
          (lt_of_lt_of_le (natAbs_fmod_lt a b hbz) hbk)
          b (a.fmod b) (x1 - q * x0) x0 le_rfl (by omega) hfnn
          ?_ ?_ ?_ ?_ ?_ ?_
        · have expand : (x1 - q * x0) * x0 = x0 * x1 - q * (x0 * x0) := by ring
          have h6 : 0 ≤ q * (x0 * x0) := mul_nonneg hq (mul_self_nonneg x0)
          rw [expand]
          linarith
        · rw [habs, hfd]
          have : ((x1.natAbs : Int) + q * x0.natAbs) * b +
              (x0.natAbs : Int) * (a - b * q) =
              (x0.natAbs : Int) * a + (x1.natAbs : Int) * b := by ring
          rw [this, hcons]
        · have h7 : (x0.natAbs : Int) * 1 ≤ (x0.natAbs : Int) * a :=
            mul_le_mul_of_nonneg_left (by omega) (by positivity)
          have h8 : 0 ≤ (x1.natAbs : Int) * b :=
            mul_nonneg (by positivity) hb
          linarith
        · exact hc0
        · have expand : (x1 - q * x0) * a0 = x1 * a0 - q * (x0 * a0) := by ring
          rw [expand, hfd]
          have h9 : q * (x0 * a0) ≡ q * b [ZMOD b0] := Int.ModEq.mul_left q hc0
          have h10 := Int.ModEq.sub hc1 h9
          calc x1 * a0 - q * (x0 * a0) ≡ a - q * b [ZMOD b0] := h10
            _ = a - b * q := by ring
        · rw [gcd_fmod_step a b]
          exact hgcd
    · rw [if_neg ha]
      have ha1 : a = 1 := by omega
      subst ha1
      constructor
      · intro _
        refine ⟨x1, rfl, hx1, ?_⟩
        exact hc1
      · intro hg
        exfalso
        apply hg
        rw [← hgcd]
        have : Int.gcd 1 b = 1 := by simp [Int.gcd]
        exact this

/-- `mul_inv(a, m)` for `a ≥ 1`, `m ≥ 2`, `gcd(a, m) = 1`: returns the
inverse of `a` normalized into `[0, m)`. -/
theorem mul_inv_coprime (a b : Int) (ha : 1 ≤ a) (hb : 2 ≤ b)
    (hg : Int.gcd a b = 1) :
    ∃ r, Hastads.mul_inv a b = some r ∧ 0 ≤ r ∧ r < b ∧
      r * a ≡ 1 [ZMOD b] := by
  have hinit := mulInvLoop_spec a b hb b.natAbs a b 0 1 le_rfl ha (by omega)
    (by simp) (by simp) (by simp; omega)
    (by simpa using Int.ModEq.refl a)
    (by
      show (0 * a) % b = b % b
      simp [Int.emod_self])
    rfl
  obtain ⟨r0, hr0, habs, hcong⟩ := hinit.1 hg
  have hne : (r0.natAbs : Int) ≠ b := by
    intro heq
    have hdvd : b ∣ r0 := by
      have : r0 = b ∨ r0 = -b := by omega
      rcases this with h | h <;> simp [h]
    have h0 : r0 ≡ 0 [ZMOD b] := Int.modEq_zero_iff_dvd.mpr hdvd
    have h6 : r0 * a ≡ 0 * a [ZMOD b] := Int.ModEq.mul_right a h0
    have h2 : (1 : Int) ≡ 0 [ZMOD b] := by
      calc (1 : Int) ≡ r0 * a [ZMOD b] := hcong.symm
        _ ≡ 0 * a [ZMOD b] := h6
        _ = 0 := by ring
    have h3 : b ∣ 1 := Int.modEq_zero_iff_dvd.mp h2
    have := Int.le_of_dvd (by norm_num) h3
    omega
  refine ⟨if r0 < 0 then r0 + b else r0, ?_, ?_, ?_, ?_⟩
  · unfold Hastads.mul_inv
    rw [if_neg (by omega : ¬ b = 1), hr0]
    rfl
  · split <;> omega
  · split <;> omega
  · split
    · rename_i hneg
      have hb0 : b ≡ 0 [ZMOD b] := Int.modEq_zero_iff_dvd.mpr dvd_rfl
      calc (r0 + b) * a = r0 * a + b * a := by ring
        _ ≡ r0 * a + 0 * a [ZMOD b] :=
          Int.ModEq.add_left _ (Int.ModEq.mul_right a hb0)
        _ = r0 * a := by ring
        _ ≡ 1 [ZMOD b] := hcong
    · exact hcong

/-- `mul_inv(a, m)` for `a ≥ 1`, `m ≥ 2`, `gcd(a, m) ≠ 1`: the Euclid
loop divides by zero (Python `ZeroDivisionError`). -/
theorem mul_inv_not_coprime (a b : Int) (ha : 1 ≤ a) (hb : 2 ≤ b)
    (hg : Int.gcd a b ≠ 1) :
    Hastads.mul_inv a b = none := by
  have hinit := mulInvLoop_spec a b hb b.natAbs a b 0 1 le_rfl ha (by omega)
    (by simp) (by simp) (by simp; omega)
    (by simpa using Int.ModEq.refl a)
    (by
      show (0 * a) % b = b % b
      simp [Int.emod_self])
    rfl
  unfold Hastads.mul_inv
  rw [if_neg (by omega : ¬ b = 1), hinit.2 hg]
  rfl

/-! ## Correctness of `chinese_remainder` -/

/-- `reduce(lambda a, b: a * b, n)` is the product of the list. -/
theorem foldl_mul_eq_prod (l : List Int) (a : Int) :
    l.foldl (· * ·) a = a * l.prod := by
  induction l generalizing a with
  | nil => simp
  | cons x xs ihx => simp [List.foldl_cons, ihx, mul_assoc]

theorem one_le_list_prod (l : List Int) (h : ∀ x ∈ l, 1 ≤ x) :
    1 ≤ l.prod := by
  induction l with
  | nil => simp
  | cons x xs ihx =>
    rw [List.prod_cons]
    have hx := h x (List.mem_cons_self x xs)
    have hxs := ihx (fun y hy => h y (List.mem_cons_of_mem x hy))
    nlinarith

theorem gcd_list_prod_left (l : List Int) (t : Int)
    (h : ∀ x ∈ l, Int.gcd x t = 1) : Int.gcd l.prod t = 1 := by
  induction l with
  | nil => simp [Int.gcd]
  | cons x xs ihx =>
    rw [List.prod_cons, ← Int.isCoprime_iff_gcd_eq_one]
    exact IsCoprime.mul_left
      (Int.isCoprime_iff_gcd_eq_one.mpr (h x (List.mem_cons_self x xs)))
      (Int.isCoprime_iff_gcd_eq_one.mpr
        (ihx (fun y hy => h y (List.mem_cons_of_mem x hy))))

/-- A product of pairwise-coprime common divisors divides. -/
theorem list_prod_dvd_of_pairwise_coprime (l : List Int) (z : Int)
    (hcop : List.Pairwise (fun a b => Int.gcd a b = 1) l)
    (hdvd : ∀ x ∈ l, x ∣ z) : l.prod ∣ z := by
  induction l with
  | nil => simp
  | cons x xs ihx =>
    rw [List.prod_cons]
    rcases List.pairwise_cons.mp hcop with ⟨hx, hxs⟩
    have hgx : Int.gcd x xs.prod = 1 := by
      rw [Int.gcd_comm]
      exact gcd_list_prod_left xs x (fun y hy => by
        rw [Int.gcd_comm]
        exact hx y hy)
    exact (Int.isCoprime_iff_gcd_eq_one.mpr hgx).mul_dvd
      (hdvd x (List.mem_cons_self x xs))
      (ihx hxs (fun y hy => hdvd y (List.mem_cons_of_mem x hy)))

/-- `prod // y` for an occurrence of `y` in the list is the product of the
remaining elements. -/
theorem fdiv_prod_split (l1 l2 : List Int) (y : Int) (hy : y ≠ 0) :
    ((l1 ++ y :: l2).prod).fdiv y = l1.prod * l2.prod := by
  rw [List.prod_append, List.prod_cons]
  have : l1.prod * (y * l2.prod) = y * (l1.prod * l2.prod) := by ring
  rw [this, Int.mul_fdiv_cancel_left _ hy]

/-- Main summation invariant of the CRT loop: with residues `m % nᵢ` and
valid moduli, the loop succeeds and its sum is `≡ m` modulo each modulus.
The final conjunct (divisibility of the sum by every common divisor of
the cofactors `P // nᵢ`) is what makes the induction go through. -/
theorem crtLoop_spec (P m : Int) :
    ∀ (ns : List Int) (acc : Int),
      (∀ ni ∈ ns, 2 ≤ ni ∧ 1 ≤ P.fdiv ni ∧ Int.gcd (P.fdiv ni) ni = 1) →
      List.Pairwise (fun ni nj => ni ∣ P.fdiv nj ∧ nj ∣ P.fdiv ni) ns →
      ∃ S, crtLoop P (ns.zip (ns.map (fun ni => m % ni))) acc = .ok (acc + S) ∧
        (∀ ni ∈ ns, S ≡ m [ZMOD ni]) ∧
        (∀ d : Int, (∀ ni ∈ ns, d ∣ P.fdiv ni) → d ∣ S) := by
  intro ns
  induction ns with
  | nil =>
    intro acc _ _
    exact ⟨0, by simp [crtLoop], by simp, by simp⟩
  | cons n0 rest ih =>
    intro acc hall hpair
    obtain ⟨h2, hp1, hpg⟩ := hall n0 (List.mem_cons_self n0 rest)
    rcases List.pairwise_cons.mp hpair with ⟨hhead, hrest⟩
    obtain ⟨inv, hinv, hinv0, hinvlt, hinvc⟩ :=
      mul_inv_coprime (P.fdiv n0) n0 hp1 h2 hpg
    set t0 := (m % n0) * inv * (P.fdiv n0) with ht0
    obtain ⟨S1, hS1, hS1mod, hS1dvd⟩ :=
      ih (acc + t0) (fun ni hni => hall ni (List.mem_cons_of_mem n0 hni)) hrest
    refine ⟨t0 + S1, ?_, ?_, ?_⟩
    · show crtLoop P ((n0, m % n0) :: rest.zip (rest.map fun ni => m % ni)) acc
        = .ok (acc + (t0 + S1))
      simp only [crtLoop, hinv]
      rw [← ht0, hS1]
      congr 1
      ring
    · intro ni hni
      rcases List.mem_cons.mp hni with h | h
      · subst h
        have hm1 : t0 ≡ m % ni [ZMOD ni] := by
          calc t0 = (m % ni) * (inv * P.fdiv ni) := by rw [ht0]; ring
            _ ≡ (m % ni) * 1 [ZMOD ni] := Int.ModEq.mul_left _ hinvc
            _ = m % ni := by ring
        have hm2 : (m % ni) ≡ m [ZMOD ni] := by
          show m % ni % ni = m % ni
          exact Int.emod_emod_of_dvd m dvd_rfl
        have hS10 : S1 ≡ 0 [ZMOD ni] := by
          apply Int.modEq_zero_iff_dvd.mpr
          exact hS1dvd ni (fun nj hnj => (hhead nj hnj).1)
        calc t0 + S1 ≡ m + 0 [ZMOD ni] := Int.ModEq.add (hm1.trans hm2) hS10
          _ = m := by ring
      · have ht00 : t0 ≡ 0 [ZMOD ni] := by
          apply Int.modEq_zero_iff_dvd.mpr
          have : ni ∣ P.fdiv n0 := (hhead ni h).2
          exact Dvd.dvd.mul_left this _
        calc t0 + S1 ≡ 0 + m [ZMOD ni] := Int.ModEq.add ht00 (hS1mod ni h)
          _ = m := by ring
    · intro d hd
      have hd0 : d ∣ t0 := Dvd.dvd.mul_left (hd n0 (List.mem_cons_self n0 rest)) _
      exact dvd_add hd0 (hS1dvd d (fun ni hni => hd ni (List.mem_cons_of_mem n0 hni)))

/-- An element of a list divides the product of the others. -/
theorem dvd_fdiv_of_mem_ne (ns : List Int) (a b : Int)
    (ha : a ∈ ns) (hb : b ∈ ns) (hab : a ≠ b) (hb0 : b ≠ 0) :
    a ∣ ns.prod.fdiv b := by
  obtain ⟨l1, l2, hsplit⟩ := List.append_of_mem hb
  subst hsplit
  rw [fdiv_prod_split l1 l2 b hb0]
  rcases List.mem_append.mp ha with h | h
  · exact Dvd.dvd.mul_right (List.dvd_prod h) _
  · rcases List.mem_cons.mp h with h' | h'
    · exact absurd h' hab
    · exact Dvd.dvd.mul_left (List.dvd_prod h') _

/-- `chinese_remainder` round-trips: on a non-empty list of pairwise
coprime moduli (each `> 1`) and the residues of `m`, it returns
`m mod ∏ nᵢ`. -/
theorem chinese_remainder_spec (ns : List Int) (m : Int)
    (hne : ns ≠ []) (h2 : ∀ ni ∈ ns, 2 ≤ ni)
    (hcop : List.Pairwise (fun a b => Int.gcd a b = 1) ns) :
    chinese_remainder ns (ns.map (fun ni => m % ni)) = .ok (m % ns.prod) := by
  have hP1 : 1 ≤ ns.prod := one_le_list_prod ns (fun x hx => by
    have := h2 x hx
    omega)
  have hfacts : ∀ ni ∈ ns,
      2 ≤ ni ∧ 1 ≤ ns.prod.fdiv ni ∧ Int.gcd (ns.prod.fdiv ni) ni = 1 := by
    intro ni hni
    have hni2 := h2 ni hni
    obtain ⟨l1, l2, hsplit⟩ := List.append_of_mem hni
    have hmem1 : ∀ x ∈ l1, x ∈ ns := fun x hx => by
      rw [hsplit]
      exact List.mem_append.mpr (Or.inl hx)
    have hmem2 : ∀ x ∈ l2, x ∈ ns := fun x hx => by
      rw [hsplit]
      exact List.mem_append.mpr (Or.inr (List.mem_cons_of_mem ni hx))
    have hfd : ns.prod.fdiv ni = l1.prod * l2.prod := by
      rw [hsplit]
      exact fdiv_prod_split l1 l2 ni (by omega)
    have hl1 : 1 ≤ l1.prod := one_le_list_prod l1 (fun x hx => by
      have := h2 x (hmem1 x hx)
      omega)
    have hl2 : 1 ≤ l2.prod := one_le_list_prod l2 (fun x hx => by
      have := h2 x (hmem2 x hx)
      omega)
    refine ⟨hni2, by rw [hfd]; nlinarith, ?_⟩
    rw [hfd, ← List.prod_append]
    apply gcd_list_prod_left
    intro x hx
    rw [hsplit] at hcop
    rcases List.pairwise_append.mp hcop with ⟨_, hc2, hcross⟩
    rcases List.mem_append.mp hx with h | h
    · exact hcross x h ni (List.mem_cons_self ni l2)
    · rw [Int.gcd_comm]
      exact (List.pairwise_cons.mp hc2).1 x h
  have hpairR : List.Pairwise
      (fun ni nj => ni ∣ ns.prod.fdiv nj ∧ nj ∣ ns.prod.fdiv ni) ns := by
    apply List.Pairwise.imp_of_mem ?_ hcop
    intro a b ha hb hg
    have ha2 := h2 a ha
    have hb2 := h2 b hb
    have hab : a ≠ b := by
      intro he
      subst he
      rw [Int.gcd_self] at hg
      omega
    exact ⟨dvd_fdiv_of_mem_ne ns a b ha hb hab (by omega),
      dvd_fdiv_of_mem_ne ns b a hb ha (Ne.symm hab) (by omega)⟩
  obtain ⟨S, hok, hmod, _⟩ := crtLoop_spec ns.prod m ns 0 hfacts hpairR
  obtain ⟨n0, rest, hns⟩ : ∃ n0 rest, ns = n0 :: rest := by
    rcases ns with _ | ⟨n0, rest⟩
    · exact absurd rfl hne
    · exact ⟨n0, rest, rfl⟩
  have hfold : rest.foldl (· * ·) n0 = ns.prod := by
    rw [foldl_mul_eq_prod, hns, List.prod_cons]
  have hSm : S ≡ m [ZMOD ns.prod] := by
    apply Int.modEq_iff_dvd.mpr
    apply list_prod_dvd_of_pairwise_coprime ns (m - S) hcop
    intro ni hni
    exact Int.ModEq.dvd (hmod ni hni)
  subst hns
  show chinese_remainder (n0 :: rest) ((n0 :: rest).map (fun ni => m % ni))
    = .ok (m % (n0 :: rest).prod)
  simp only [chinese_remainder, hfold]
  rw [hok]
  simp only [Except.map]
  congr 1
  rw [zero_add, Int.fmod_eq_emod _ (by omega)]
  exact hSm

/-! ## Correctness of `find_invpow` -/

/-- The doubling loop yields a power of two whose `n`-th power reaches `x`,
and (unless it never ran) the previous power of two was still below `x`. -/
theorem hiLoop_spec (x n : Nat) (hn : 1 ≤ n) :
    ∀ (k high : Nat), x - high ≤ k → 1 ≤ high → (∃ t, high = 2 ^ t) →
      ∃ t, hiLoop x n high = 2 ^ t ∧ x ≤ (2 ^ t) ^ n ∧
        (hiLoop x n high = high ∨ (hiLoop x n high / 2) ^ n < x) := by
  intro k
  induction k using Nat.strong_induction_on with
  | _ k ih =>
    intro high hk h1 ⟨t, ht⟩
    rw [hiLoop]
    by_cases hcond : high ^ n < x ∧ 1 ≤ n ∧ 1 ≤ high
    · rw [if_pos hcond]
      have hhx : high < x := lt_of_le_of_lt (Nat.le_self_pow (by omega) high) hcond.1
      have hk' : x - high * 2 < k := by omega
      obtain ⟨t', h1', h2', h3'⟩ := ih (x - high * 2) hk' (high * 2) le_rfl
        (by omega) ⟨t + 1, by rw [ht]; ring⟩
      refine ⟨t', h1', h2', ?_⟩
      rcases h3' with h | h
      · right
        rw [h]
        have : high * 2 / 2 = high := by omega
        rw [this]
        exact hcond.1
      · right
        exact h
    · rw [if_neg hcond]
      have hxle : x ≤ high ^ n := by
        rcases Nat.lt_or_ge (high ^ n) x with h | h
        · exact absurd ⟨h, hn, h1⟩ hcond
        · exact h
      exact ⟨t, ht, by rw [← ht]; exact hxle, Or.inl rfl⟩

/-- Bisection invariant: starting from `lowⁿ < x < highⁿ` the loop returns
the floor `n`-th root of `x`. -/
theorem bisect_spec (x n : Nat) (hn : 1 ≤ n) :
    ∀ (k low high : Nat), high - low ≤ k → low < high → low ^ n < x →
      x < high ^ n →
      (bisect x n low high) ^ n ≤ x ∧ x < (bisect x n low high + 1) ^ n := by
  intro k
  induction k using Nat.strong_induction_on with
  | _ k ih =>
    intro low high hk hlh hlow hhigh
    rw [bisect, if_pos hlh]
    simp only
    set mid := (low + high) / 2 with hmid
    have hmlow : low ≤ mid := by omega
    have hmhigh : mid < high := by omega
    by_cases hg1 : low < mid ∧ mid ^ n < x
    · rw [if_pos hg1]
      exact ih (high - mid) (by omega) mid high le_rfl hmhigh hg1.2 hhigh
    · rw [if_neg hg1]
      by_cases hg2 : mid < high ∧ x < mid ^ n
      · rw [if_pos hg2]
        exact ih (mid - low) (by omega) low mid le_rfl
          (by
            rcases Nat.lt_or_ge low mid with h | h
            · exact h
            · exfalso
              have : mid = low := by omega
              rw [this] at hg2
              omega)
          hlow hg2.2
      · rw [if_neg hg2]
        have hxge : mid ^ n ≤ x := by
          rcases Nat.lt_or_ge x (mid ^ n) with h | h
          · exact absurd ⟨hmhigh, h⟩ hg2
          · exact h
        rcases Nat.eq_or_lt_of_le hxge with heq | hlt
        · constructor
          · omega
          · rw [← heq]
            exact Nat.pow_lt_pow_left (by omega) (by omega)
        · have hmeq : mid = low := by
            rcases Nat.lt_or_ge low mid with h | h
            · exact absurd ⟨h, hlt⟩ hg1
            · omega
          have hh1 : high = low + 1 := by omega
          refine ⟨le_of_lt hlt, ?_⟩
          rw [hmeq, ← hh1]
          exact hhigh

/-- Bisection when `x` is exactly `highⁿ`: every probe undershoots and the
loop converges to `high - 1` instead of `high`. -/
theorem bisect_pow_eq (x n : Nat) (hn : 1 ≤ n) :
    ∀ (k low high : Nat), high - low ≤ k → 1 ≤ low → low < high →
      x = high ^ n →
      bisect x n low high = high - 1 := by
  intro k
  induction k using Nat.strong_induction_on with
  | _ k ih =>
    intro low high hk h1 hlh hx
    rw [bisect, if_pos hlh]
    simp only
    set mid := (low + high) / 2 with hmid
    have hmlow : low ≤ mid := by omega
    have hmhigh : mid < high := by omega
    have hmx : mid ^ n < x := by
      rw [hx]
      exact Nat.pow_lt_pow_left hmhigh (by omega)
    by_cases hg1 : low < mid ∧ mid ^ n < x
    · rw [if_pos hg1]
      exact ih (high - mid) (by omega) mid high le_rfl (by omega) hmhigh hx
    · rw [if_neg hg1]
      have hmeq : mid = low := by
        rcases Nat.lt_or_ge low mid with h | h
        · exact absurd ⟨h, hmx⟩ hg1
        · omega
      rw [if_neg (by
        intro ⟨_, hc⟩
        omega)]
      omega

/-- `find_invpow` returns the floor `n`-th root whenever `x` is not an
exact `n`-th power of a power of two. -/
theorem find_invpow_floor (x n : Nat) (hn : 1 ≤ n)
    (hnp : ∀ t, x ≠ 2 ^ (t * n)) :
    (find_invpow x n) ^ n ≤ x ∧ x < (find_invpow x n + 1) ^ n := by
  have hx1 : x ≠ 1 := by
    intro h
    exact hnp 0 (by simpa using h)
  rcases Nat.eq_zero_or_pos x with hx0 | hxpos
  · subst hx0
    have hh : hiLoop 0 n 1 = 1 := by
      rw [hiLoop]
      simp
    unfold find_invpow
    rw [hh]
    show (bisect 0 n 0 1) ^ n ≤ 0 ∧ 0 < (bisect 0 n 0 1 + 1) ^ n
    have hzp : (0 : Nat) ^ n = 0 := Nat.zero_pow (by omega)
    have hb : bisect 0 n 0 1 = 0 := by
      rw [bisect]
      norm_num [hzp]
    rw [hb]
    simp [hzp]
  · have hx2 : 2 ≤ x := by omega
    obtain ⟨T, hT, hxle, hor⟩ := hiLoop_spec x n hn (x - 1) 1 (by omega)
      le_rfl ⟨0, rfl⟩
    have hne1 : hiLoop x n 1 ≠ 1 := by
      intro h
      rw [h] at hT
      have : (1 : Nat) = 2 ^ T := hT
      have hx1' : x ≤ 1 := by
        calc x ≤ (2 ^ T) ^ n := hxle
          _ = 1 ^ n := by rw [← this]
          _ = 1 := one_pow n
      omega
    have hlow : (hiLoop x n 1 / 2) ^ n < x := by
      rcases hor with h | h
      · exact absurd h hne1
      · exact h
    have hT1 : 1 ≤ T := by
      by_contra h
      have : T = 0 := by omega
      rw [this] at hT
      exact hne1 (by simpa using hT)
    have hxlt : x < (2 ^ T) ^ n := by
      rcases Nat.eq_or_lt_of_le hxle with h | h
      · exfalso
        exact hnp T (by rw [h, ← pow_mul, Nat.mul_comm])
      · exact h
    unfold find_invpow
    rw [hT] at hlow ⊢
    have h2T : 2 ≤ 2 ^ T := by
      calc 2 = 2 ^ 1 := (pow_one 2).symm
        _ ≤ 2 ^ T := Nat.pow_le_pow_right (by omega) hT1
    exact bisect_spec x n hn (2 ^ T) (2 ^ T / 2) (2 ^ T) (by omega)
      (Nat.div_lt_self (by omega) (by omega)) hlow hxlt

/-- On an exact `n`-th power of a power of two, `find_invpow` returns one
less than the true root. -/
theorem find_invpow_pow_two (n t : Nat) (hn : 1 ≤ n) :
    find_invpow (2 ^ (t * n)) n = 2 ^ t - 1 := by
  rcases Nat.eq_zero_or_pos t with ht0 | htpos
  · subst ht0
    have hx : 2 ^ (0 * n) = 1 := by norm_num
    unfold find_invpow
    rw [hx]
    have hh : hiLoop 1 n 1 = 1 := by
      rw [hiLoop]
      simp
    rw [hh]
    have hzp : (0 : Nat) ^ n = 0 := Nat.zero_pow (by omega)
    have hb : bisect 1 n 0 1 = 0 := by
      rw [bisect]
      norm_num [hzp]
    rw [hb]
    norm_num
  · set x := 2 ^ (t * n) with hxdef
    have htn : 1 ≤ t * n := Nat.mul_pos htpos hn
    have hx2 : 2 ≤ x := by
      calc 2 = 2 ^ 1 := (pow_one 2).symm
        _ ≤ 2 ^ (t * n) := Nat.pow_le_pow_right (by omega) htn
    obtain ⟨T, hT, hxle, hor⟩ := hiLoop_spec x n hn (x - 1) 1 (by omega)
      le_rfl ⟨0, rfl⟩
    have hne1 : hiLoop x n 1 ≠ 1 := by
      intro h
      rw [h] at hT
      have h1T : (1 : Nat) = 2 ^ T := hT
      have : x ≤ 1 := by
        calc x ≤ (2 ^ T) ^ n := hxle
          _ = 1 ^ n := by rw [← h1T]
          _ = 1 := one_pow n
      omega
    have hlow : (hiLoop x n 1 / 2) ^ n < x := by
      rcases hor with h | h
      · exact absurd h hne1
      · exact h
    have hT1 : 1 ≤ T := by
      by_contra h
      have : T = 0 := by omega
      rw [this] at hT
      exact hne1 (by simpa using hT)
    have hdiv : 2 ^ T / 2 = 2 ^ (T - 1) := by
      obtain ⟨s, hs⟩ := Nat.exists_eq_add_of_le hT1
      subst hs
      rw [Nat.add_comm 1 s, Nat.add_sub_cancel, pow_succ]
      exact Nat.mul_div_cancel _ (by norm_num)
    have hTle : t ≤ T := by
      have h1 : (2 : Nat) ^ (t * n) ≤ 2 ^ (T * n) := by
        rw [pow_mul 2 T n]
        exact hxle
      have h2 := (Nat.pow_le_pow_iff_right (by omega : 1 < 2)).mp h1
      exact Nat.le_of_mul_le_mul_right h2 (by omega)
    have hTge : T ≤ t := by
      rw [hT, hdiv] at hlow
      have h1 : (2 : Nat) ^ ((T - 1) * n) < 2 ^ (t * n) := by
        rw [pow_mul 2 (T - 1) n]
        exact hlow
      have h2 := (Nat.pow_lt_pow_iff_right (by omega : 1 < 2)).mp h1
      have h3 := Nat.lt_of_mul_lt_mul_right h2
      omega
    have hTt : T = t := le_antisymm hTge hTle
    subst hTt
    unfold find_invpow
    rw [hT]
    show bisect x n (2 ^ T / 2) (2 ^ T) = 2 ^ T - 1
    rw [hdiv]
    apply bisect_pow_eq x n hn (2 ^ T) (2 ^ (T - 1)) (2 ^ T) (by omega)
      (Nat.one_le_two_pow) ?_ ?_
    · have hlt : T - 1 < T := by omega
      exact Nat.pow_lt_pow_right (by omega) hlt
    · rw [hxdef, pow_mul]

/-! ## `hex` / `bytes.fromhex` round trip -/

theorem fromhexPairs_append (A B : List Nat) (hA : A.length % 2 = 0) :
    fromhexPairs (A ++ B) =
      (fromhexPairs A).bind (fun as => (fromhexPairs B).map (fun bs => as ++ bs)) := by
  suffices H : ∀ (k : Nat) (A' : List Nat), A'.length ≤ k → A'.length % 2 = 0 →
      fromhexPairs (A' ++ B) = (fromhexPairs A').bind
        (fun as => (fromhexPairs B).map (fun bs => as ++ bs)) from
    H A.length A le_rfl hA
  intro k
  induction k with
  | zero =>
    intro A' hlen _
    have hnil : A' = [] := List.eq_nil_of_length_eq_zero (by omega)
    subst hnil
    simp only [List.nil_append, fromhexPairs, Option.some_bind]
    rcases fromhexPairs B with _ | bs <;> simp
  | succ n ihn =>
    intro A' hlen hA'
    match A' with
    | [] =>
      simp only [List.nil_append, fromhexPairs, Option.some_bind]
      rcases fromhexPairs B with _ | bs <;> simp
    | [d] => simp at hA'
    | d0 :: d1 :: rest =>
      have hrest : rest.length % 2 = 0 := by
        simp at hA'
        omega
      have hrlen : rest.length ≤ n := by
        simp at hlen
        omega
      have hih := ihn rest hrlen hrest
      show (fromhexPairs (rest ++ B)).map (fun bs => (d0 * 16 + d1) :: bs) =
        ((fromhexPairs rest).map (fun bs => (d0 * 16 + d1) :: bs)).bind
          (fun as => (fromhexPairs B).map (fun bs => as ++ bs))
      rw [hih]
      rcases fromhexPairs rest with _ | as <;>
        rcases fromhexPairs B with _ | bs <;> simp

/-- Big-endian hex-digit decomposition of `v ≥ 16`: the two last digits
are `v / 16 % 16` and `v % 16`, preceded by the digits of `v / 256`. -/
theorem pyHexDigits_split (v : Nat) (hv : 16 ≤ v) :
    pyHexDigits v =
      (Nat.digits 16 (v / 256)).reverse ++ [v / 16 % 16, v % 16] := by
  have hv0 : v ≠ 0 := by omega
  have h1 : Nat.digits 16 v = v % 16 :: Nat.digits 16 (v / 16) :=
    Nat.digits_def' (by omega) (by omega)
  have h2 : Nat.digits 16 (v / 16) =
      v / 16 % 16 :: Nat.digits 16 (v / 16 / 16) :=
    Nat.digits_def' (by omega) (by omega)
  have h3 : v / 16 / 16 = v / 256 := by omega
  rw [pyHexDigits, if_neg hv0, h1, h2, h3]
  simp

theorem bytesBE_split (v : Nat) (hv : 1 ≤ v) :
    bytesBE v = (Nat.digits 256 (v / 256)).reverse ++ [v % 256] := by
  have h1 : Nat.digits 256 v = v % 256 :: Nat.digits 256 (v / 256) :=
    Nat.digits_def' (by omega) (by omega)
  rw [bytesBE, h1]
  simp

/-- For `v ≥ 1` whose hex representation has even length,
`bytes.fromhex(hex(v)[2:])` is exactly the minimal big-endian byte string
of `v`. -/
theorem fromhexPairs_pyHexDigits (v : Nat) (hv : 1 ≤ v)
    (heven : (Nat.digits 16 v).length % 2 = 0) :
    fromhexPairs (pyHexDigits v) = some (bytesBE v) := by
  induction v using Nat.strong_induction_on with
  | _ v ih =>
    by_cases hv16 : v < 16
    · exfalso
      have h1 : Nat.digits 16 v = v % 16 :: Nat.digits 16 (v / 16) :=
        Nat.digits_def' (by omega) (by omega)
      have h2 : v / 16 = 0 := by omega
      rw [h1, h2] at heven
      simp at heven
    · push_neg at hv16
      have hsplit := pyHexDigits_split v hv16
      have hlen : (Nat.digits 16 v).length =
          (Nat.digits 16 (v / 256)).length + 2 := by
        have h1 : Nat.digits 16 v = v % 16 :: Nat.digits 16 (v / 16) :=
          Nat.digits_def' (by omega) (by omega)
        have h2 : Nat.digits 16 (v / 16) =
            v / 16 % 16 :: Nat.digits 16 (v / 16 / 16) :=
          Nat.digits_def' (by omega) (by omega)
        have h3 : v / 16 / 16 = v / 256 := by omega
        rw [h1, h2, h3]
        simp
      have hbyte : v / 16 % 16 * 16 + v % 16 = v % 256 := by omega
      have htail : fromhexPairs [v / 16 % 16, v % 16] = some [v % 256] := by
        show (fromhexPairs []).map _ = _
        simp [fromhexPairs, hbyte]
      rw [hsplit, fromhexPairs_append _ _ (by simp; omega), htail]
      rcases Nat.eq_zero_or_pos (v / 256) with hq | hq
      · have hbv : bytesBE v = [v % 256] := by
          rw [bytesBE_split v hv, hq]
          simp
        rw [hq, hbv]
        simp [fromhexPairs]
      · have hqlt : v / 256 < v := Nat.div_lt_self (by omega) (by omega)
        have hqeven : (Nat.digits 16 (v / 256)).length % 2 = 0 := by omega
        have hihq := ih (v / 256) hqlt (by omega) hqeven
        have hA : pyHexDigits (v / 256) = (Nat.digits 16 (v / 256)).reverse := by
          rw [pyHexDigits, if_neg (by omega)]
        rw [← hA, hihq]
        rw [bytesBE_split v hv]
        simp
        rfl

/-! ## Behaviour of `attack` on a non-singleton exponent set -/

/-- When the exponents of the usable keys (`e < 11`) do not form a
singleton set, the Håstad attack returns `(None, None)`. -/
theorem attack_not_singleton (publickeys : List PubKey)
    (cipher : List (List Nat))
    (h : ((publickeys.filter (fun pk => pk.e < 11)).map
        (fun pk => pk.e)).dedup.length ≠ 1) :
    attack publickeys cipher = .ok (none, none) := by
  simp only [attack]
  rcases hd : ((publickeys.filter (fun pk => pk.e < 11)).map
      (fun pk => pk.e)).dedup with _ | ⟨e, _ | ⟨e2, rest⟩⟩
  · rw [hd]
  · exact absurd (by rw [hd]; rfl) h
  · rw [hd]

end Hastads

/-!
## Claim C1 — Håstad end-to-end
-/

/-- C1 counterexample: the broadcast attack does not recover every small
plaintext.  For `m = 2`, `e = 3`, moduli `3, 5, 7` and ciphertexts
`c_i = 2³ mod n_i`, the CRT result is `8 = 2³`, but `find_invpow(8, 3)`
returns `1` instead of `2`, `hex(1)[2:] = "1"` has odd length, and
`bytes.fromhex` raises `ValueError` — the attack neither returns the
byte representation of 2 nor any result at all. -/
theorem hastad_power_of_two_counterexample :
    (Hastads.fromBytesBE [2] : Int) = 2 ^ 3 % 3 ∧
    (Hastads.fromBytesBE [3] : Int) = 2 ^ 3 % 5 ∧
    (Hastads.fromBytesBE [1] : Int) = 2 ^ 3 % 7 ∧
    (2 : Int) ^ 3 < 3 * 5 * 7 ∧
    Hastads.attack [⟨3, 3⟩, ⟨5, 3⟩, ⟨7, 3⟩] [[2], [3], [1]] =
      .error .valueError ∧
    (Except.error PyErr.valueError :
        Except PyErr (Option Int × Option (List Nat))) ≠
      .ok (none, some (Hastads.bytesBE 2)) := by
  refine ⟨by decide, by decide, by decide, by decide, ?_, ?_⟩
  · have hcr : Hastads.chinese_remainder [(3 : Int), 5, 7] [(2 : Int), 3, 1] =
        .ok 8 := by
      simp [Hastads.chinese_remainder, Hastads.crtLoop, Hastads.mul_inv,
        Hastads.mulInvLoop, Except.map, Int.fmod]
    have hfi : Hastads.find_invpow 8 3 = 1 := by
      simp [Hastads.find_invpow, Hastads.hiLoop, Hastads.bisect]
    show (match Hastads.chinese_remainder [(3 : Int), 5, 7]
        [((Hastads.fromBytesBE [2] : Nat) : Int),
          ((Hastads.fromBytesBE [3] : Nat) : Int),
          ((Hastads.fromBytesBE [1] : Nat) : Int)] with
      | .error err => .error err
      | .ok result =>
        match Hastads.fromhexPairs (Hastads.pyHexDigits
            (Hastads.find_invpow result.toNat (3 : Int).toNat)) with
        | none => Except.error PyErr.valueError
        | some unciphered => Except.ok (none, some unciphered))
      = Except.error PyErr.valueError
    rw [show ((Hastads.fromBytesBE [2] : Nat) : Int) = 2 from rfl,
      show ((Hastads.fromBytesBE [3] : Nat) : Int) = 3 from rfl,
      show ((Hastads.fromBytesBE [1] : Nat) : Int) = 1 from rfl, hcr]
    show (match Hastads.fromhexPairs (Hastads.pyHexDigits
        (Hastads.find_invpow (8 : Int).toNat (3 : Int).toNat)) with
      | none => Except.error PyErr.valueError
      | some unciphered => Except.ok (none, some unciphered))
      = Except.error PyErr.valueError
    rw [show ((8 : Int).toNat) = 8 from rfl, show ((3 : Int).toNat) = 3 from rfl,
      hfi]
    have hph : Hastads.pyHexDigits 1 = [1] := by
      simp [Hastads.pyHexDigits, Nat.digits_def']
    rw [hph]
    rfl
  · intro h
    exact Except.noConfusion h

/-- C1 (amended): Håstad end-to-end correctness holds for plaintexts `m`
that are not powers of two and whose hexadecimal representation has even
length: given `e = 3`, pairwise-coprime moduli `n₁, n₂, n₃ > 1` (each key
with `e = 3 < 11`), ciphertext byte strings with values `m³ mod nᵢ`, and
`m³ < n₁·n₂·n₃`, the attack returns a pair whose private-key component is
`None` and whose plaintext component is exactly the minimal big-endian
byte representation of `m`.  (For `m` a power of two the root extraction
is off by one, and for odd hex length the byte decoding raises — see the
counterexample.) -/
theorem hastad_recovers (m : Nat) (n1 n2 n3 : Int) (c1 c2 c3 : List Nat)
    (hm : 1 ≤ m)
    (hnp2 : ∀ t : Nat, m ≠ 2 ^ t)
    (heven : (Nat.digits 16 m).length % 2 = 0)
    (h1 : 1 < n1) (h2 : 1 < n2) (h3 : 1 < n3)
    (h12 : Int.gcd n1 n2 = 1) (h13 : Int.gcd n1 n3 = 1)
    (h23 : Int.gcd n2 n3 = 1)
    (hsize : (m : Int) ^ 3 < n1 * n2 * n3)
    (hc1 : (Hastads.fromBytesBE c1 : Int) = (m : Int) ^ 3 % n1)
    (hc2 : (Hastads.fromBytesBE c2 : Int) = (m : Int) ^ 3 % n2)
    (hc3 : (Hastads.fromBytesBE c3 : Int) = (m : Int) ^ 3 % n3) :
    Hastads.attack [⟨n1, 3⟩, ⟨n2, 3⟩, ⟨n3, 3⟩] [c1, c2, c3] =
      .ok (none, some (Hastads.bytesBE m)) := by
  have hprod : ([n1, n2, n3] : List Int).prod = n1 * n2 * n3 := by
    simp [List.prod_cons]
    ring
  have hcr : Hastads.chinese_remainder [n1, n2, n3]
      [(Hastads.fromBytesBE c1 : Int), (Hastads.fromBytesBE c2 : Int),
        (Hastads.fromBytesBE c3 : Int)] = .ok ((m : Int) ^ 3) := by
    have hlist : [(Hastads.fromBytesBE c1 : Int), (Hastads.fromBytesBE c2 : Int),
        (Hastads.fromBytesBE c3 : Int)] =
        ([n1, n2, n3] : List Int).map (fun ni => (m : Int) ^ 3 % ni) := by
      simp [hc1, hc2, hc3]
    rw [hlist]
    rw [Hastads.chinese_remainder_spec [n1, n2, n3] ((m : Int) ^ 3)
      (by simp)
      (by
        intro ni hni
        simp at hni
        rcases hni with rfl | rfl | rfl <;> omega)
      (by
        refine List.Pairwise.cons ?_ (List.Pairwise.cons ?_ ?_)
        · intro b hb
          simp at hb
          rcases hb with rfl | rfl
          · exact h12
          · exact h13
        · intro b hb
          simp at hb
          subst hb
          exact h23
        · exact List.pairwise_singleton _ _)]
    congr 1
    rw [hprod]
    exact Int.emod_eq_of_lt (by positivity) hsize
  have hmc : ((m : Int) ^ 3).toNat = m ^ 3 := by
    rw [show ((m : Int) ^ 3) = ((m ^ 3 : Nat) : Int) by push_cast; ring]
    exact Int.toNat_natCast _
  have hfi : Hastads.find_invpow (m ^ 3) 3 = m := by
    have hnp : ∀ t, m ^ 3 ≠ 2 ^ (t * 3) := by
      intro t h
      apply hnp2 t
      have h2' : m ^ 3 = (2 ^ t) ^ 3 := by rw [h, pow_mul]
      exact Nat.pow_left_injective (by omega) h2'
    obtain ⟨hle, hlt⟩ := Hastads.find_invpow_floor (m ^ 3) 3 (by omega) hnp
    have hr1 : Hastads.find_invpow (m ^ 3) 3 ≤ m :=
      (Nat.pow_le_pow_iff_left (by omega)).mp hle
    have hr2 : m < Hastads.find_invpow (m ^ 3) 3 + 1 :=
      (Nat.pow_lt_pow_iff_left (by omega)).mp hlt
    omega
  have hfh : Hastads.fromhexPairs (Hastads.pyHexDigits m) =
      some (Hastads.bytesBE m) :=
    Hastads.fromhexPairs_pyHexDigits m hm heven
  show (match Hastads.chinese_remainder [n1, n2, n3]
      [(Hastads.fromBytesBE c1 : Int), (Hastads.fromBytesBE c2 : Int),
        (Hastads.fromBytesBE c3 : Int)] with
    | .error err => .error err
    | .ok result =>
      match Hastads.fromhexPairs (Hastads.pyHexDigits
          (Hastads.find_invpow result.toNat (3 : Int).toNat)) with
      | none => Except.error PyErr.valueError
      | some unciphered => Except.ok (none, some unciphered))
    = Except.ok (none, some (Hastads.bytesBE m))
  rw [hcr]
  show (match Hastads.fromhexPairs (Hastads.pyHexDigits
      (Hastads.find_invpow ((m : Int) ^ 3).toNat (3 : Int).toNat)) with
    | none => Except.error PyErr.valueError
    | some unciphered => Except.ok (none, some unciphered))
    = Except.ok (none, some (Hastads.bytesBE m))
  rw [show ((3 : Int).toNat) = 3 from rfl, hmc, hfi, hfh]

/-- Witness for C1 (amended) at `m = 17` (hex `"11"`, even length, not a
power of two), moduli `7, 27, 29`, ciphertexts `17³ mod nᵢ`. -/
theorem hastad_recovers_witness :
    Hastads.attack [⟨7, 3⟩, ⟨27, 3⟩, ⟨29, 3⟩] [[6], [26], [12]] =
      .ok (none, some (Hastads.bytesBE 17)) :=
  hastad_recovers 17 7 27 29 [6] [26] [12]
    (by norm_num)
    (by
      intro t h
      rcases Nat.lt_or_ge t 5 with ht | ht
      · interval_cases t <;> norm_num at h
      · have h32 : 32 ≤ 2 ^ t := by
          calc (32 : Nat) = 2 ^ 5 := by norm_num
            _ ≤ 2 ^ t := Nat.pow_le_pow_right (by omega) ht
        omega)
    (by
      have : Nat.digits 16 17 = [1, 1] := by
        rw [Nat.digits_def' (by norm_num : 1 < 16) (by norm_num : 0 < 17)]
        norm_num
      rw [this]
      norm_num)
    (by norm_num) (by norm_num) (by norm_num)
    (by decide) (by decide) (by decide)
    (by norm_num)
    (by decide) (by decide) (by decide)

/-!
## Claim C2 — `find_invpow`
-/

/-- C2 counterexample: the round trip fails on powers of two:
`find_invpow(2³, 3) = 1 ≠ 2` (the source returns `high - 1` when `x` is
an exact power of the doubling bound), so `find_invpow` is not
`floor(x^(1/k))` for every non-negative `x`. -/
theorem find_invpow_round_trip_counterexample :
    Hastads.find_invpow (2 ^ 3) 3 = 1 ∧ (1 : Nat) ≠ 2 := by
  constructor
  · show Hastads.find_invpow 8 3 = 1
    simp [Hastads.find_invpow, Hastads.hiLoop, Hastads.bisect]
  · decide

/-- C2 (amended): for `k ≥ 1`, `find_invpow(x, k)` returns
`floor(x^(1/k))` for every non-negative `x` that is not an exact `k`-th
power of a power of two; at `x = 2^(t·k)` it returns `2^t - 1` (one less
than the exact root).  Consequently the round trip
`find_invpow(x^k, k) = x` holds exactly when `x` is not a power of two.
All arithmetic is over unbounded naturals (no floating point). -/
theorem find_invpow_contract (x n : Nat) (hn : 1 ≤ n) :
    ((∀ t, x ≠ 2 ^ (t * n)) →
      (Hastads.find_invpow x n) ^ n ≤ x ∧
        x < (Hastads.find_invpow x n + 1) ^ n) ∧
    (∀ t, x = 2 ^ (t * n) → Hastads.find_invpow x n = 2 ^ t - 1) ∧
    (∀ y : Nat, x = y ^ n → (∀ t, y ≠ 2 ^ t) →
      Hastads.find_invpow x n = y) := by
  refine ⟨fun hnp => Hastads.find_invpow_floor x n hn hnp, ?_, ?_⟩
  · intro t ht
    subst ht
    exact Hastads.find_invpow_pow_two n t hn
  · intro y hxy hy
    subst hxy
    have hnp : ∀ t, y ^ n ≠ 2 ^ (t * n) := by
      intro t h
      apply hy t
      have h2 : y ^ n = (2 ^ t) ^ n := by rw [h, pow_mul]
      exact Nat.pow_left_injective (by omega) h2
    obtain ⟨hle, hlt⟩ := Hastads.find_invpow_floor (y ^ n) n hn hnp
    have h1 : Hastads.find_invpow (y ^ n) n ≤ y :=
      (Nat.pow_le_pow_iff_left (by omega)).mp hle
    have h2 : y < Hastads.find_invpow (y ^ n) n + 1 :=
      (Nat.pow_lt_pow_iff_left (by omega)).mp hlt
    omega

/-- Witness for C2 at `x = 10`, `k = 2` (not a power-of-two power):
the returned value is the floor square root of 10. -/
theorem find_invpow_contract_witness :
    (Hastads.find_invpow 10 2) ^ 2 ≤ 10 ∧
      10 < (Hastads.find_invpow 10 2 + 1) ^ 2 :=
  (find_invpow_contract 10 2 (by norm_num)).1 (by
    intro t h
    rcases Nat.lt_or_ge t 2 with ht | ht
    · interval_cases t <;> norm_num at h
    · have h16 : 16 ≤ 2 ^ (t * 2) := by
        calc (16 : Nat) = 2 ^ 4 := by norm_num
          _ ≤ 2 ^ (t * 2) := Nat.pow_le_pow_right (by omega) (by omega)
      omega)

/-!
## Claim C3 — `chinese_remainder`
-/

/-- C3: CRT round trip.  For a non-empty list of pairwise-coprime moduli
(each `> 1`) and the residues `aᵢ = m mod nᵢ` of any integer `m`,
`chinese_remainder` returns exactly `m mod ∏ nᵢ`. -/
theorem chinese_remainder_round_trip (ns : List Int) (m : Int)
    (hne : ns ≠ []) (h2 : ∀ ni ∈ ns, 1 < ni)
    (hcop : List.Pairwise (fun a b => Int.gcd a b = 1) ns) :
    Hastads.chinese_remainder ns (ns.map (fun ni => m % ni)) =
      .ok (m % ns.prod) :=
  Hastads.chinese_remainder_spec ns m hne
    (fun ni hni => by have := h2 ni hni; omega) hcop

/-- Witness for C3 at `ns = [3, 5]`, `m = 7`. -/
theorem chinese_remainder_round_trip_witness :
    Hastads.chinese_remainder [3, 5]
        ([3, 5].map (fun ni => (7 : Int) % ni)) =
      .ok (7 % ([3, 5] : List Int).prod) :=
  chinese_remainder_round_trip [3, 5] 7 (by simp) (by decide) (by decide)

/-!
## Claim C4 — `mul_inv`
-/

/-- C4 counterexample: `mul_inv(0, 4)` returns `1` without failing even
though `gcd(0, 4) = 4 ≠ 1` (and `1·0 ≢ 1 (mod 4)`), refuting "fails
exactly when `gcd(a, m) ≠ 1`" over all integer inputs. -/
theorem mul_inv_zero_counterexample :
    Hastads.mul_inv 0 4 = some 1 ∧ Int.gcd (0 : Int) 4 ≠ 1 ∧
      ¬((1 : Int) * 0 ≡ 1 [ZMOD 4]) := by
  refine ⟨?_, by decide, by decide⟩
  simp [Hastads.mul_inv, Hastads.mulInvLoop]

/-- C4 (amended): for `a ≥ 1` and `m ≥ 2`, `mul_inv(a, m)` fails — with a
`ZeroDivisionError` from the Euclid loop, there is no `NotInvertibleError`
in the source — exactly when `gcd(a, m) ≠ 1`; when `gcd(a, m) = 1` it
returns the unique inverse of `a` modulo `m`, normalized into `[0, m)`,
never negative. -/
theorem mul_inv_contract (a m : Int) (ha : 1 ≤ a) (hm : 2 ≤ m) :
    (Int.gcd a m ≠ 1 → Hastads.mul_inv a m = none) ∧
    (Int.gcd a m = 1 → ∃ r, Hastads.mul_inv a m = some r ∧ 0 ≤ r ∧ r < m ∧
      r * a ≡ 1 [ZMOD m]) :=
  ⟨fun h => Hastads.mul_inv_not_coprime a m ha hm h,
   fun h => Hastads.mul_inv_coprime a m ha hm h⟩

/-- Witness for C4 at `a = 3`, `m = 7` (coprime) and the computed inverse
is in `[0, 7)` with `r·3 ≡ 1 (mod 7)`. -/
theorem mul_inv_contract_witness :
    ∃ r, Hastads.mul_inv 3 7 = some r ∧ 0 ≤ r ∧ r < 7 ∧
      r * 3 ≡ 1 [ZMOD 7] :=
  (mul_inv_contract 3 7 (by norm_num) (by norm_num)).2 (by decide)

/-!
## Claim C6 — Håstad inapplicable-input handling
-/

/-- C6 counterexample: with exactly one usable key (`e = 3 < 11`) the
attack does *not* return `(None, None)`: the singleton exponent set
passes the only guard and the attack proceeds (here all the way into
`bytes.fromhex`, which raises `ValueError` on an odd-length hex string).
This refutes "returns (None, None) whenever fewer than two usable keys
are supplied". -/
theorem hastad_single_key_counterexample :
    Hastads.attack [⟨4, 3⟩] [[1]] = .error .valueError ∧
      (Except.error PyErr.valueError : Except PyErr (Option Int × Option (List Nat))) ≠
        .ok (none, none) := by
  constructor
  · have hcr : Hastads.chinese_remainder [(4 : Int)] [(1 : Int)] = .ok 1 := by
      simp [Hastads.chinese_remainder, Hastads.crtLoop, Hastads.mul_inv,
        Hastads.mulInvLoop, Except.map, Int.fmod]
    have hfi : Hastads.find_invpow 1 3 = 0 := by
      simp [Hastads.find_invpow, Hastads.hiLoop, Hastads.bisect]
    show (match Hastads.chinese_remainder [(4 : Int)]
        [((Hastads.fromBytesBE [1] : Nat) : Int)] with
      | .error err => .error err
      | .ok result =>
        match Hastads.fromhexPairs (Hastads.pyHexDigits
            (Hastads.find_invpow result.toNat (3 : Int).toNat)) with
        | none => Except.error PyErr.valueError
        | some unciphered => Except.ok (none, some unciphered))
      = Except.error PyErr.valueError
    rw [show ((Hastads.fromBytesBE [1] : Nat) : Int) = 1 from rfl, hcr]
    show (match Hastads.fromhexPairs (Hastads.pyHexDigits
        (Hastads.find_invpow (1 : Int).toNat (3 : Int).toNat)) with
      | none => Except.error PyErr.valueError
      | some unciphered => Except.ok (none, some unciphered))
      = Except.error PyErr.valueError
    rw [show ((1 : Int).toNat) = 1 from rfl, show ((3 : Int).toNat) = 3 from rfl,
      hfi]
    rfl
  · intro h
    exact Except.noConfusion h

/-- C6 (amended): the Håstad attack returns `(None, None)` exactly when
the set of public exponents among usable keys (`e < 11`) is not a
singleton — in particular for mixed exponent values and when every key
has `e ≥ 11` (including no usable keys at all).  A *single* usable key is
not rejected (see the counterexample). -/
theorem hastad_not_singleton_no_result (publickeys : List Hastads.PubKey)
    (cipher : List (List Nat))
    (h : ((publickeys.filter (fun pk => pk.e < 11)).map
        (fun pk => pk.e)).dedup.length ≠ 1) :
    Hastads.attack publickeys cipher = .ok (none, none) :=
  Hastads.attack_not_singleton publickeys cipher h

/-- Witness for C6: two keys with different small exponents (3 and 5)
give a non-singleton exponent set, and the attack returns `(None, None)`;
likewise a single key with `e = 12 ≥ 11` leaves no usable key. -/
theorem hastad_not_singleton_no_result_witness :
    Hastads.attack [⟨5, 3⟩, ⟨7, 5⟩] [[1], [1]] = .ok (none, none) ∧
      Hastads.attack [⟨5, 12⟩] [[1]] = .ok (none, none) :=
  ⟨hastad_not_singleton_no_result [⟨5, 3⟩, ⟨7, 5⟩] [[1], [1]] (by decide),
   hastad_not_singleton_no_result [⟨5, 12⟩] [[1]] (by decide)⟩

/-!
## Claim C7 — no-raise contract of the attack entry points
-/

/-- C7 counterexample: the Håstad entry point *does* raise.  With two
usable keys sharing the modulus 4 the CRT cofactor `prod // n_i = 4` is
not invertible modulo 4 and the Euclid loop in `mul_inv` divides by
zero, so `attack` propagates a `ZeroDivisionError` instead of returning
`(None, None)`. -/
theorem hastad_raises_counterexample :
    Hastads.attack [⟨4, 3⟩, ⟨4, 3⟩] [[1], [1]] = .error .zeroDivision := by
  have hcr : Hastads.chinese_remainder [(4 : Int), 4] [(1 : Int), 1] =
      .error .zeroDivision := by
    simp [Hastads.chinese_remainder, Hastads.crtLoop, Hastads.mul_inv,
      Hastads.mulInvLoop, Except.map, Int.fmod]
  show (match Hastads.chinese_remainder [(4 : Int), 4]
      [((Hastads.fromBytesBE [1] : Nat) : Int),
        ((Hastads.fromBytesBE [1] : Nat) : Int)] with
    | .error err => .error err
    | .ok result =>
      match Hastads.fromhexPairs (Hastads.pyHexDigits
          (Hastads.find_invpow result.toNat (3 : Int).toNat)) with
      | none => Except.error PyErr.valueError
      | some unciphered => Except.ok (none, some unciphered))
    = Except.error PyErr.zeroDivision
  rw [show ((Hastads.fromBytesBE [1] : Nat) : Int) = 1 from rfl, hcr]

/-- C7 (amended): the Boneh–Durfee and small-fraction entry points return
`(None, None)` without raising when their method fails (a `None` factor
result or a caught `OverflowError` for Boneh–Durfee; a caught
`CalledProcessError`/`TimeoutExpired` or a non-positive tool output for
small-fraction) — but the Håstad entry point can raise (see the
counterexample), so the blanket no-raise contract does not hold. -/
theorem no_raise_amended :
    (∀ (pk : PubKeyState) (construct : Int → Int → Int → Int × Int),
      BonehDurfee.attack pk (.ok none) construct = (pk, .ok (none, none)) ∧
      BonehDurfee.attack pk (.error .overflowError) construct =
        (pk, .ok (none, none))) ∧
    (∀ pk : PubKeyState,
      Smallfraction.attack pk (.error .calledProcessError) =
          (pk, .ok (none, none)) ∧
      Smallfraction.attack pk (.error .timeoutExpired) =
          (pk, .ok (none, none)) ∧
      ∀ v : Int, v ≤ 0 →
        Smallfraction.attack pk (.ok v) = (pk, .ok (none, none))) := by
  refine ⟨fun pk construct => ⟨rfl, rfl⟩, fun pk => ⟨rfl, rfl, ?_⟩⟩
  intro v hv
  simp [Smallfraction.attack, not_lt.mpr hv]

/-- Witness for C7 (amended) at a concrete key state and tool output. -/
theorem no_raise_amended_witness :
    Smallfraction.attack ⟨15, 3, none, none⟩ (.ok 0) =
      (⟨15, 3, none, none⟩, .ok (none, none)) :=
  (no_raise_amended.2 ⟨15, 3, none, none⟩).2.2 0 le_rfl

/-!
## Claim C5 — bound arithmetic of `factor`
-/

/-- C5 evidence: `A` is *not* computed exactly.  At `N = 2⁵⁴ + 2` the
source's `A = int((N + 1) / 2)` goes through binary64 floating point and
yields `9007199254740994`, one more than the exact
`floor((N + 1) / 2) = 9007199254740993` demanded by the claim (and by the
mathematics of the attack, which needs `A = (N + 1) / 2` exactly). -/
theorem factor_A_precision_loss :
    BonehDurfee.factor_A 18014398509481986 = some 9007199254740994 ∧
      (18014398509481986 + 1) / 2 = 9007199254740993 := by
  constructor
  · have hlog : Nat.log 2 ((18014398509481986 + 1) / 2) = 53 := by
      have hq : (18014398509481986 + 1) / 2 = 9007199254740993 := by norm_num
      rw [hq]
      apply Nat.log_eq_of_pow_le_of_lt_pow <;> norm_num
    simp only [BonehDurfee.factor_A, BonehDurfee.pyIntTrueDiv, hlog]
    norm_num [BonehDurfee.rhe]
  · norm_num

/-!
## Claim C8 — strict-mode sentinel on determinant-bound violation
-/

/-- C8: when the pruned lattice's determinant reaches the theoretical
bound `modulus^(m·nn)`, `boneh_durfee` returns the sentinel `(-1, -1)`
under `strict = True` — distinct from the no-result sentinel `(0, 0)` —
and under the default lenient mode (`strict = False`, the module
constant) it continues with the LLL reduction and root extraction
(`rest`) instead of stopping. -/
theorem boneh_durfee_strict_sentinel (BB : List (List Int))
    (monomials : List Nat) (modulus : Int) (mm : Nat)
    (rest : List (List Int) → List Nat → Int × Int)
    (hnn : (BonehDurfee.remove_unhelpful BB monomials (modulus ^ mm)
      BB.length).1.length ≠ 0)
    (hdet : modulus ^ (mm * (BonehDurfee.remove_unhelpful BB monomials
        (modulus ^ mm) BB.length).1.length) ≤
      BonehDurfee.detList (BonehDurfee.remove_unhelpful BB monomials
        (modulus ^ mm) BB.length).1) :
    BonehDurfee.boneh_durfee_check true true BB monomials modulus mm rest =
        (-1, -1) ∧
    BonehDurfee.boneh_durfee_check false true BB monomials modulus mm rest =
      rest (BonehDurfee.remove_unhelpful BB monomials (modulus ^ mm)
          BB.length).1
        (BonehDurfee.remove_unhelpful BB monomials (modulus ^ mm)
          BB.length).2 ∧
    ((-1, -1) : Int × Int) ≠ (0, 0) := by
  refine ⟨?_, ?_, by decide⟩
  · simp only [BonehDurfee.boneh_durfee_check, if_true]
    rw [if_neg (by simpa using hnn), if_pos hdet]
  · simp only [BonehDurfee.boneh_durfee_check, if_true]
    rw [if_neg (by simpa using hnn), if_pos hdet]
    simp

/-- Witness for C8 on the 1x1 lattice `[[5]]` with `modulus = 2`,
`m = 1`: the determinant 5 reaches the bound `2`, strict mode returns
`(-1, -1)`, lenient mode continues into `rest`. -/
theorem boneh_durfee_strict_sentinel_witness :
    BonehDurfee.boneh_durfee_check true true [[(5 : Int)]] [0] 2 1
        (fun _ _ => (9, 9)) = (-1, -1) ∧
    BonehDurfee.boneh_durfee_check false true [[(5 : Int)]] [0] 2 1
        (fun _ _ => (9, 9)) =
      (fun (_ : List (List Int)) (_ : List Nat) => ((9 : Int), (9 : Int)))
        (BonehDurfee.remove_unhelpful [[(5 : Int)]] [0] (2 ^ 1)
            [[(5 : Int)]].length).1
        (BonehDurfee.remove_unhelpful [[(5 : Int)]] [0] (2 ^ 1)
            [[(5 : Int)]].length).2 ∧
    ((-1, -1) : Int × Int) ≠ (0, 0) := by
  have hru : BonehDurfee.remove_unhelpful [[(5 : Int)]] [0] (2 ^ 1)
      [[(5 : Int)]].length = ([[(5 : Int)]], [0]) := by
    rw [BonehDurfee.remove_unhelpful]
    norm_num [BonehDurfee.dimension_min]
  exact boneh_durfee_strict_sentinel [[(5 : Int)]] [0] 2 1 (fun _ _ => (9, 9))
    (by rw [hru]; norm_num)
    (by rw [hru]; decide)

/-!
## Claim C9 — factor attachment only on success
-/

/-- C9 counterexample: the factordb attack writes `publickey.p` and
`publickey.q` *before* validating them.  With three ids on the query page
and both id pages carrying the digit string of `n = 35` itself, the
attack stores `p = q = n` into the caller's `PublicKey`, then hits the
`p == q == n` guard and returns `(None, None)` — a no-result invocation
that has mutated the key. -/
theorem factordb_mutates_on_no_result :
    Factordb.attack ⟨35, 3, none, none⟩ [0, 1, 2] false
        (fun i => if i = 1 ∨ i = 2 then some (.digits 35) else none)
        (fun _ _ => 0) =
      (⟨35, 3, some 35, some 35⟩, .ok (none, none)) ∧
    (⟨35, 3, some 35, some 35⟩ : PubKeyState) ≠ ⟨35, 3, none, none⟩ := by
  exact ⟨rfl, by decide⟩

/-- C9 (amended): the Boneh–Durfee and small-fraction attacks write the
`p`, `q` attributes of the caller's `PublicKey` only on invocations that
return a non-empty private key; whenever they return `(None, None)` the
key object is unchanged.  The factordb attack violates this: it can
return `(None, None)` after writing `p = q = n` (see the
counterexample). -/
theorem factor_attachment_amended :
    (∀ (pk : PubKeyState) (fr : Except PyErr (Option Int))
        (construct : Int → Int → Int → Int × Int),
      (BonehDurfee.attack pk fr construct).2 = .ok (none, none) →
      (BonehDurfee.attack pk fr construct).1 = pk) ∧
    (∀ (pk : PubKeyState) (sr : Except PyErr Int),
      (Smallfraction.attack pk sr).2 = .ok (none, none) →
      (Smallfraction.attack pk sr).1 = pk) := by
  constructor
  · intro pk fr construct h
    rcases fr with e | od
    · cases e <;> rfl
    · rcases od with _ | d
      · rfl
      · exfalso
        simp [BonehDurfee.attack] at h
  · intro pk sr h
    rcases sr with e | v
    · cases e <;> rfl
    · rcases lt_or_ge 0 v with hv | hv
      · exfalso
        simp [Smallfraction.attack, hv] at h
      · simp [Smallfraction.attack, not_lt.mpr hv]

/-- Witness for C9 (amended): a failing Boneh–Durfee run leaves the key
untouched. -/
theorem factor_attachment_amended_witness :
    (BonehDurfee.attack ⟨15, 3, none, none⟩ (.ok none)
        (fun a b _ => (a, b))).1 = ⟨15, 3, none, none⟩ :=
  factor_attachment_amended.1 ⟨15, 3, none, none⟩ (.ok none)
    (fun a b _ => (a, b)) rfl

/-!
## Claim C10 — `remove_unhelpful` invariants
-/

namespace BonehDurfee

/-- Erasing index `i` shifts later lookups by one (with default). -/
theorem getD_eraseIdx {α : Type} (l : List α) (i j : Nat) (d : α) :
    (l.eraseIdx i).getD j d = if j < i then l.getD j d else l.getD (j + 1) d := by
  rw [List.getD_eq_getElem?_getD, List.getD_eq_getElem?_getD,
    List.getD_eq_getElem?_getD, List.getElem?_eraseIdx]
  split <;> rfl

/-- `mget` through the `getElem?` view. -/
theorem mget_eq_getElem? (BB : List (List Int)) (i j : Nat) :
    mget BB i j = ((BB[i]?).map (fun r => r.getD j 0)).getD 0 := by
  unfold mget
  rw [List.getD_eq_getElem?_getD]
  rcases h : BB[i]? with _ | row <;> simp [h, List.getD_eq_getElem?_getD]

/-- Entry access after deleting row `i` and column `i`. -/
theorem mget_eraseRowCol (BB : List (List Int)) (i a b : Nat) :
    mget (eraseRowCol i BB) a b =
      mget BB (if a < i then a else a + 1) (if b < i then b else b + 1) := by
  rw [mget_eq_getElem?, mget_eq_getElem?]
  unfold eraseRowCol
  rw [List.getElem?_map, List.getElem?_eraseIdx]
  by_cases hai : a < i
  · rw [if_pos hai, if_pos hai]
    rcases h : BB[a]? with _ | row
    · rfl
    · show (row.eraseIdx i).getD b 0 = row.getD (if b < i then b else b + 1) 0
      rw [getD_eraseIdx row i b 0]
      by_cases hbi : b < i
      · rw [if_pos hbi, if_pos hbi]
      · rw [if_neg hbi, if_neg hbi]
  · rw [if_neg hai, if_neg hai]
    rcases h : BB[a + 1]? with _ | row
    · rfl
    · show (row.eraseIdx i).getD b 0 = row.getD (if b < i then b else b + 1) 0
      rw [getD_eraseIdx row i b 0]
      by_cases hbi : b < i
      · rw [if_pos hbi, if_pos hbi]
      · rw [if_neg hbi, if_neg hbi]

theorem eraseRowCol_length (BB : List (List Int)) (i : Nat)
    (hi : i < BB.length) : (eraseRowCol i BB).length = BB.length - 1 := by
  unfold eraseRowCol
  rw [List.length_map, List.length_eraseIdx]
  rw [if_pos hi]

theorem eraseRowCol_square (BB : List (List Int)) (i : Nat)
    (hi : i < BB.length) (hsq : ∀ r ∈ BB, r.length = BB.length) :
    ∀ r ∈ eraseRowCol i BB, r.length = (eraseRowCol i BB).length := by
  intro r hr
  rw [eraseRowCol_length BB i hi]
  unfold eraseRowCol at hr
  obtain ⟨r0, hr0, hrr⟩ := List.mem_map.mp hr
  have hr0' : r0 ∈ BB := List.mem_of_mem_eraseIdx hr0
  have hlen := hsq r0 hr0'
  rw [← hrr, List.length_eraseIdx]
  rw [if_pos (by omega)]
  omega

/-- The identity selection: all indices give back the matrix. -/
theorem subMat_range (BB : List (List Int))
    (hsq : ∀ r ∈ BB, r.length = BB.length) :
    subMat (List.range BB.length) BB = BB := by
  unfold subMat
  apply List.ext_getElem (by simp)
  intro i h1 h2
  simp only [List.getElem_map, List.getElem_range]
  have hrow : BB[i] ∈ BB := List.getElem_mem h2
  apply List.ext_getElem (by simp [hsq BB[i] hrow])
  intro j h3 h4
  simp only [List.getElem_map, List.getElem_range]
  unfold mget
  rw [List.getD_eq_getElem BB [] h2, List.getD_eq_getElem _ 0 h4]

theorem subIdx_range (monomials : List Nat) (n : Nat)
    (hm : monomials.length = n) :
    subIdx (List.range n) monomials = monomials := by
  unfold subIdx
  apply List.ext_getElem (by simp [hm])
  intro i h1 h2
  rw [List.getElem_map, List.getElem_range]
  exact List.getD_eq_getElem monomials 0 h2

/-- The index shift performed by erasing position `i`. -/
def idxShift (i : Nat) (a : Nat) : Nat :=
  if a < i then a else a + 1

theorem idxShift_strictMono (i : Nat) {a b : Nat} (h : a < b) :
    idxShift i a < idxShift i b := by
  unfold idxShift
  split <;> split <;> omega

theorem mget_idxShift (BB : List (List Int)) (i a b : Nat) :
    mget (eraseRowCol i BB) a b = mget BB (idxShift i a) (idxShift i b) := by
  rw [mget_eraseRowCol]
  by_cases ha : a < i <;> by_cases hb : b < i <;> simp [idxShift, ha, hb]

theorem getD_idxShift (l : List Nat) (i a : Nat) :
    (l.eraseIdx i).getD a 0 = l.getD (idxShift i a) 0 := by
  rw [getD_eraseIdx]
  by_cases h : a < i <;> simp [idxShift, h]

/-- Composing a selection with a single row/column deletion. -/
theorem subMat_eraseRowCol (BB : List (List Int)) (i : Nat) (ks : List Nat) :
    subMat ks (eraseRowCol i BB) = subMat (ks.map (idxShift i)) BB := by
  unfold subMat
  rw [List.map_map]
  apply List.map_congr_left
  intro a _
  show ks.map (fun j => mget (eraseRowCol i BB) a j) =
    (ks.map (idxShift i)).map (fun j => mget BB (idxShift i a) j)
  rw [List.map_map]
  apply List.map_congr_left
  intro b _
  exact mget_idxShift BB i a b

theorem subIdx_eraseIdx (monomials : List Nat) (i : Nat) (ks : List Nat) :
    subIdx ks (monomials.eraseIdx i) = subIdx (ks.map (idxShift i)) monomials := by
  unfold subIdx
  rw [List.map_map]
  apply List.map_congr_left
  intro a _
  exact getD_idxShift monomials i a

theorem sorted_map_idxShift (i : Nat) (ks : List Nat)
    (hs : List.Sorted (· < ·) ks) :
    List.Sorted (· < ·) (ks.map (idxShift i)) := by
  rw [List.Sorted, List.pairwise_map]
  exact hs.imp (fun h => idxShift_strictMono i h)

/-- Main shape invariant of the pruning pass, proved for the scan and the
recursive entry simultaneously by strong induction on the scan index:
the result is always the restriction of the input matrix to a sorted set
of row indices, with the same indices deleted from rows, columns and
monomial labels alike. -/
theorem shape_main (bound : Int) (N : Nat) :
    (∀ (BB : List (List Int)) (monomials : List Nat) (iiN : Nat),
      iiN ≤ N → iiN ≤ BB.length →
      (∀ r ∈ BB, r.length = BB.length) → monomials.length = BB.length →
      ∃ ks : List Nat, List.Sorted (· < ·) ks ∧ (∀ i ∈ ks, i < BB.length) ∧
        unhelpfulScan BB monomials bound iiN =
          (subMat ks BB, subIdx ks monomials)) ∧
    (∀ (BB : List (List Int)) (monomials : List Nat) (curN : Nat),
      curN ≤ N → curN ≤ BB.length →
      (∀ r ∈ BB, r.length = BB.length) → monomials.length = BB.length →
      ∃ ks : List Nat, List.Sorted (· < ·) ks ∧ (∀ i ∈ ks, i < BB.length) ∧
        remove_unhelpful BB monomials bound curN =
          (subMat ks BB, subIdx ks monomials)) := by
  induction N using Nat.strong_induction_on with
  | _ N ih =>
    have hscan : ∀ (BB : List (List Int)) (monomials : List Nat) (iiN : Nat),
        iiN ≤ N → iiN ≤ BB.length →
        (∀ r ∈ BB, r.length = BB.length) → monomials.length = BB.length →
        ∃ ks : List Nat, List.Sorted (· < ·) ks ∧ (∀ i ∈ ks, i < BB.length) ∧
          unhelpfulScan BB monomials bound iiN =
            (subMat ks BB, subIdx ks monomials) := by
      intro BB monomials iiN hN hlen hsq hm
      match iiN, hN, hlen with
      | 0, _, _ =>
        refine ⟨List.range BB.length, List.sorted_lt_range _,
          fun i hi => List.mem_range.mp hi, ?_⟩
        rw [subMat_range BB hsq, subIdx_range monomials BB.length hm]
        rw [unhelpfulScan]
      | ii + 1, hN, hlen =>
        have hii : ii < BB.length := by omega
        have hNN : 1 ≤ N := by omega
        have hIH := ih (N - 1) (by omega)
        simp only [unhelpfulScan]
        by_cases hb : bound ≤ mget BB ii ii
        · rw [if_pos hb]
          rcases haff : (List.range BB.length).filter
              (fun jj => decide (ii < jj ∧ mget BB jj ii ≠ 0)) with
            _ | ⟨jj, _ | ⟨j2, rest2⟩⟩
          · simp only [haff]
            have hlen1 : (eraseRowCol ii BB).length = BB.length - 1 :=
              eraseRowCol_length BB ii hii
            obtain ⟨ks1, hs1, hb1, heq1⟩ := hIH.2 (eraseRowCol ii BB)
              (monomials.eraseIdx ii) ii (by omega) (by omega)
              (eraseRowCol_square BB ii hii hsq)
              (by rw [List.length_eraseIdx, if_pos (by omega)]; omega)
            refine ⟨ks1.map (idxShift ii), sorted_map_idxShift ii ks1 hs1,
              ?_, ?_⟩
            · intro x hx
              obtain ⟨a, ha, rfl⟩ := List.mem_map.mp hx
              have := hb1 a ha
              unfold idxShift
              split <;> omega
            · rw [heq1, subMat_eraseRowCol, subIdx_eraseIdx]
          · simp only [haff]
            have hjj : jj ∈ (List.range BB.length).filter
                (fun jj => decide (ii < jj ∧ mget BB jj ii ≠ 0)) := by
              rw [haff]
              exact List.mem_singleton_self jj
            obtain ⟨hjr, hjp⟩ := List.mem_filter.mp hjj
            have hjlt : jj < BB.length := List.mem_range.mp hjr
            have hij : ii < jj := (of_decide_eq_true hjp).1
            by_cases hcond : ((List.range BB.length).all
                  (fun kk => decide (kk ≤ jj ∨ mget BB kk jj = 0)) : Bool) ∧
                |bound - mget BB jj jj| < |bound - mget BB ii ii|
            · rw [if_pos hcond]
              have hlenj : (eraseRowCol jj BB).length = BB.length - 1 :=
                eraseRowCol_length BB jj hjlt
              have hsqj := eraseRowCol_square BB jj hjlt hsq
              have hiin : ii < (eraseRowCol jj BB).length := by omega
              have hleni : (eraseRowCol ii (eraseRowCol jj BB)).length =
                  BB.length - 2 := by
                rw [eraseRowCol_length _ ii hiin, hlenj]
                omega
              have hm1 : (monomials.eraseIdx jj).length = BB.length - 1 := by
                rw [List.length_eraseIdx, hm, if_pos (by omega)]
              have hm2 : ((monomials.eraseIdx jj).eraseIdx ii).length =
                  BB.length - 2 := by
                rw [List.length_eraseIdx, hm1, if_pos (by omega)]
                omega
              obtain ⟨ks1, hs1, hb1, heq1⟩ := hIH.2
                (eraseRowCol ii (eraseRowCol jj BB))
                ((monomials.eraseIdx jj).eraseIdx ii) ii (by omega)
                (by omega) (eraseRowCol_square _ ii hiin hsqj)
                (by rw [hm2, hleni])
              refine ⟨(ks1.map (idxShift ii)).map (idxShift jj),
                sorted_map_idxShift jj _ (sorted_map_idxShift ii ks1 hs1),
                ?_, ?_⟩
              · intro x hx
                obtain ⟨a1, ha1, rfl⟩ := List.mem_map.mp hx
                obtain ⟨a0, ha0, rfl⟩ := List.mem_map.mp ha1
                have := hb1 a0 ha0
                unfold idxShift
                split <;> split <;> omega
              · rw [heq1, subMat_eraseRowCol, subIdx_eraseIdx,
                  subMat_eraseRowCol, subIdx_eraseIdx]
            · rw [if_neg hcond]
              exact hIH.1 BB monomials ii (by omega) (by omega) hsq hm
          · simp only [haff]
            exact hIH.1 BB monomials ii (by omega) (by omega) hsq hm
        · rw [if_neg hb]
          exact hIH.1 BB monomials ii (by omega) (by omega) hsq hm
    have hrm : ∀ (BB : List (List Int)) (monomials : List Nat) (curN : Nat),
        curN ≤ N → curN ≤ BB.length →
        (∀ r ∈ BB, r.length = BB.length) → monomials.length = BB.length →
        ∃ ks : List Nat, List.Sorted (· < ·) ks ∧ (∀ i ∈ ks, i < BB.length) ∧
          remove_unhelpful BB monomials bound curN =
            (subMat ks BB, subIdx ks monomials) := by
      intro BB monomials curN hN hlen hsq hm
      rw [remove_unhelpful]
      by_cases hc : curN = 0 ∨ BB.length ≤ dimension_min
      · rw [if_pos hc]
        exact ⟨List.range BB.length, List.sorted_lt_range _,
          fun i hi => List.mem_range.mp hi,
          by rw [subMat_range BB hsq, subIdx_range monomials BB.length hm]⟩
      · rw [if_neg hc]
        exact hscan BB monomials curN hN hlen hsq hm
    exact ⟨hscan, hrm⟩

end BonehDurfee

/-!
## Claim C10 — pruning keeps labels and matrix in sync
-/

/-- C10: for every square integer matrix `BB`, monomial list of the same
length, bound, and starting index `curN ≤ BB.length` (the call site in
`boneh_durfee` uses `current = nn - 1`, i.e. `curN = BB.length`),
`remove_unhelpful` returns exactly the restriction of its input to a
sorted list `ks` of surviving row indices: a row is only ever deleted
together with its same-indexed column and its same-indexed monomial
label, so the output matrix is square and the output label list has
length equal to its row dimension.  (The claim's further condition that
only rows with diagonal entry ≥ bound are deleted fails; see the
counterexample.) -/
theorem remove_unhelpful_shape (bound : Int) (BB : List (List Int))
    (monomials : List Nat) (curN : Nat) (hc : curN ≤ BB.length)
    (hsq : ∀ r ∈ BB, r.length = BB.length)
    (hm : monomials.length = BB.length) :
    ∃ ks : List Nat, List.Sorted (· < ·) ks ∧ (∀ i ∈ ks, i < BB.length) ∧
      BonehDurfee.remove_unhelpful BB monomials bound curN =
        (BonehDurfee.subMat ks BB, BonehDurfee.subIdx ks monomials) ∧
      (BonehDurfee.remove_unhelpful BB monomials bound curN).2.length =
        (BonehDurfee.remove_unhelpful BB monomials bound curN).1.length ∧
      ∀ r ∈ (BonehDurfee.remove_unhelpful BB monomials bound curN).1,
        r.length =
          (BonehDurfee.remove_unhelpful BB monomials bound curN).1.length := by
  obtain ⟨ks, hs, hb, heq⟩ :=
    (BonehDurfee.shape_main bound BB.length).2 BB monomials curN hc hc hsq hm
  refine ⟨ks, hs, hb, heq, ?_, ?_⟩
  · rw [heq]
    simp [BonehDurfee.subMat, BonehDurfee.subIdx]
  · rw [heq]
    intro r hr
    simp only [BonehDurfee.subMat, List.mem_map] at hr
    obtain ⟨i, _, rfl⟩ := hr
    simp [BonehDurfee.subMat]

/-- Witness for C10 on the 1×1 matrix `[[1]]` with label list `[0]`,
bound 0 and `curN = 1`. -/
theorem remove_unhelpful_shape_witness :
    ((1 : Nat) ≤ ([[(1 : Int)]] : List (List Int)).length ∧
      (∀ r ∈ ([[(1 : Int)]] : List (List Int)),
        r.length = ([[(1 : Int)]] : List (List Int)).length) ∧
      ([0] : List Nat).length = ([[(1 : Int)]] : List (List Int)).length) ∧
    (∃ ks : List Nat, List.Sorted (· < ·) ks ∧
      (∀ i ∈ ks, i < ([[(1 : Int)]] : List (List Int)).length) ∧
      BonehDurfee.remove_unhelpful [[(1 : Int)]] [0] 0 1 =
        (BonehDurfee.subMat ks [[(1 : Int)]], BonehDurfee.subIdx ks [0]) ∧
      (BonehDurfee.remove_unhelpful [[(1 : Int)]] [0] 0 1).2.length =
        (BonehDurfee.remove_unhelpful [[(1 : Int)]] [0] 0 1).1.length ∧
      ∀ r ∈ (BonehDurfee.remove_unhelpful [[(1 : Int)]] [0] 0 1).1,
        r.length =
          (BonehDurfee.remove_unhelpful [[(1 : Int)]] [0] 0 1).1.length) :=
  ⟨⟨by decide, by decide, by decide⟩,
    remove_unhelpful_shape 0 [[(1 : Int)]] [0] 1 (by decide) (by decide)
      (by decide)⟩

/-- C10 counterexample to "only for rows whose diagonal entry is ≥ the
bound": on `BBbelow` with bound 10 and the entry-point index
`curN = BBbelow.length`, the level-1 branch deletes row 7 (together with
row 6) although its diagonal entry is `5 < 10` — label 7 is gone from
the output. -/
theorem remove_unhelpful_below_bound_counterexample :
    BonehDurfee.remove_unhelpful BBbelow [0, 1, 2, 3, 4, 5, 6, 7] 10
        BBbelow.length =
      ([[0, 0, 0, 0, 0, 0], [0, 0, 0, 0, 0, 0], [0, 0, 0, 0, 0, 0],
        [0, 0, 0, 0, 0, 0], [0, 0, 0, 0, 0, 0], [0, 0, 0, 0, 0, 0]],
       [0, 1, 2, 3, 4, 5]) ∧
    BonehDurfee.mget BBbelow 7 7 = 5 ∧
    ¬ (10 ≤ BonehDurfee.mget BBbelow 7 7) ∧
    (7 : Nat) ∉ ([0, 1, 2, 3, 4, 5] : List Nat) := by
  refine ⟨?_, by decide, by decide, by decide⟩
  simp [BonehDurfee.remove_unhelpful, BonehDurfee.unhelpfulScan,
    BonehDurfee.mget, BonehDurfee.eraseRowCol, BonehDurfee.dimension_min,
    BBbelow, List.range_succ]
